import Mathlib

set_option linter.unusedVariables false

/-!
Verification of the pager static-site builder.

Strings of the Go source are modelled as lists of characters
(type Str below).  The Go standard-library Unicode classifiers
(unicode.IsLetter, unicode.IsDigit, unicode.IsSpace, strings.ToLower)
are modelled by the ASCII classifiers of Lean Char
(Char.isAlpha, Char.isDigit, Char.isWhitespace, Char.toLower);
they are external collaborators of the code under verification.
-/

abbrev Str := List Char

namespace Pager

/-- Model of strings.HasPrefix from the Go standard library. -/
def startsWith (s p : Str) : Bool := p.isPrefixOf s

/-- The rune mapping passed to strings.Map inside slugify (src/process.go):
letters and digits map to themselves, whitespace, hyphen and underscore map
to a hyphen, everything else is dropped. -/
def slugMapRune (r : Char) : Option Char :=
  if r.isAlpha || r.isDigit then some r
  else if r.isWhitespace || r = '-' || r = '_' then some '-'
  else none

/-- Model of strings.Contains s "--" as used by the collapse loop in slugify. -/
def hasDD : Str → Bool
  | [] => false
  | [_] => false
  | c1 :: c2 :: rest => (c1 = '-' && c2 = '-') || hasDD (c2 :: rest)

/-- Model of strings.ReplaceAll s "--" "-": non-overlapping left-to-right
replacement of each double hyphen by a single one. -/
def replaceDD : Str → Str
  | [] => []
  | [c] => [c]
  | c1 :: c2 :: rest =>
    if c1 = '-' && c2 = '-' then '-' :: replaceDD rest
    else c1 :: replaceDD (c2 :: rest)

theorem replaceDD_length_le (s : Str) : (replaceDD s).length ≤ s.length := by
  induction s using replaceDD.induct with
  | case1 => simp [replaceDD]
  | case2 c => simp [replaceDD]
  | case3 c1 c2 rest h ih =>
    simp only [replaceDD, h, if_pos]
    simp only [List.length_cons]
    omega
  | case4 c1 c2 rest h ih =>
    simp only [replaceDD, h, if_neg, Bool.false_eq_true, not_false_iff]
    simp only [List.length_cons] at ih ⊢
    omega

theorem replaceDD_length_lt (s : Str) (h : hasDD s = true) :
    (replaceDD s).length < s.length := by
  induction s using replaceDD.induct with
  | case1 => simp [hasDD] at h
  | case2 c => simp [hasDD] at h
  | case3 c1 c2 rest hdd ih =>
    simp only [replaceDD, hdd, if_pos]
    have := replaceDD_length_le rest
    simp only [List.length_cons]
    omega
  | case4 c1 c2 rest hdd ih =>
    simp only [hasDD, hdd, Bool.false_or] at h
    simp only [replaceDD, hdd, if_neg, Bool.false_eq_true, not_false_iff]
    have := ih h
    simp only [List.length_cons] at this ⊢
    omega

/-- One bounded unrolling of the collapse loop of slugify.  Each iteration
strictly shortens the string (replaceDD_length_lt), so a fuel of the
string length always suffices; collapseLoop_noDD below shows the loop
always reaches its exit condition within this bound, hence this is a
faithful model of the unbounded Go loop. -/
def collapseLoop : Nat → Str → Str
  | 0, s => s
  | fuel + 1, s => if hasDD s then collapseLoop fuel (replaceDD s) else s

/-- The collapse loop of slugify: repeat ReplaceAll "--" "-" while the
string still contains a double hyphen. -/
def collapseDashes (s : Str) : Str := collapseLoop s.length s

/-- Model of strings.Trim s "-": remove leading and trailing hyphens. -/
def trimDashes (s : Str) : Str :=
  ((s.dropWhile (· == '-')).reverse.dropWhile (· == '-')).reverse

/-- slugify from src/process.go: lower-case, map runes, collapse double
hyphens, trim hyphens. -/
def slugify (s : Str) : Str :=
  trimDashes (collapseDashes ((s.map Char.toLower).filterMap slugMapRune))

/-! Arithmetic facts about the character classifiers. -/

theorem charLe_iff {a b : Char} : a ≤ b ↔ a.toNat ≤ b.toNat := by
  rw [Char.le_def, UInt32.le_def, BitVec.le_def]
  exact Iff.rfl

theorem toNat_ofNat_valid {n : Nat} (h : n < 55296) : (Char.ofNat n).toNat = n := by
  have hv : n.isValidChar := Or.inl h
  rw [Char.ofNat, dif_pos hv]
  rfl

theorem isUpper_iff {c : Char} : c.isUpper = true ↔ 65 ≤ c.toNat ∧ c.toNat ≤ 90 := by
  simp only [Char.isUpper, Bool.and_eq_true, decide_eq_true_eq, ge_iff_le, UInt32.le_def,
    BitVec.le_def]
  exact Iff.rfl

theorem isLower_iff {c : Char} : c.isLower = true ↔ 97 ≤ c.toNat ∧ c.toNat ≤ 122 := by
  simp only [Char.isLower, Bool.and_eq_true, decide_eq_true_eq, ge_iff_le, UInt32.le_def,
    BitVec.le_def]
  exact Iff.rfl

theorem isDigit_iff {c : Char} : c.isDigit = true ↔ 48 ≤ c.toNat ∧ c.toNat ≤ 57 := by
  simp only [Char.isDigit, Bool.and_eq_true, decide_eq_true_eq, ge_iff_le, UInt32.le_def,
    BitVec.le_def]
  exact Iff.rfl

theorem toLower_toNat (c : Char) :
    (Char.toLower c).toNat = if 65 ≤ c.toNat ∧ c.toNat ≤ 90 then c.toNat + 32 else c.toNat := by
  rw [Char.toLower]
  split
  · rename_i h
    exact toNat_ofNat_valid (by omega)
  · rfl

theorem char_eq_iff_toNat {a b : Char} : a = b ↔ a.toNat = b.toNat := by
  constructor
  · intro h; rw [h]
  · intro h
    apply Char.ext
    exact UInt32.toNat.inj h

/-- A character of a well-formed slug: a lowercase ASCII letter, an ASCII
digit, or a hyphen. -/
def slugChar (c : Char) : Prop :=
  ('a' ≤ c ∧ c ≤ 'z') ∨ ('0' ≤ c ∧ c ≤ '9') ∨ c = '-'

theorem slugChar_toNat {c : Char} (h : slugChar c) :
    (97 ≤ c.toNat ∧ c.toNat ≤ 122) ∨ (48 ≤ c.toNat ∧ c.toNat ≤ 57) ∨ c.toNat = 45 := by
  rcases h with ⟨h1, h2⟩ | ⟨h1, h2⟩ | h
  · exact Or.inl ⟨charLe_iff.mp h1, charLe_iff.mp h2⟩
  · exact Or.inr (Or.inl ⟨charLe_iff.mp h1, charLe_iff.mp h2⟩)
  · subst h; exact Or.inr (Or.inr rfl)

theorem slugChar_of_toNat {c : Char}
    (h : (97 ≤ c.toNat ∧ c.toNat ≤ 122) ∨ (48 ≤ c.toNat ∧ c.toNat ≤ 57) ∨ c.toNat = 45) :
    slugChar c := by
  rcases h with ⟨h1, h2⟩ | ⟨h1, h2⟩ | h
  · exact Or.inl ⟨charLe_iff.mpr h1, charLe_iff.mpr h2⟩
  · exact Or.inr (Or.inl ⟨charLe_iff.mpr h1, charLe_iff.mpr h2⟩)
  · refine Or.inr (Or.inr ?_)
    rw [char_eq_iff_toNat, h]
    rfl

theorem slugMapRune_out {a c : Char} (h : slugMapRune a = some c) :
    (c = a ∧ (a.isAlpha = true ∨ a.isDigit = true)) ∨ c = '-' := by
  unfold slugMapRune at h
  split at h
  · rename_i ha
    refine Or.inl ⟨(Option.some_inj.mp h).symm, ?_⟩
    rcases Bool.or_eq_true_iff.mp ha with h1 | h1
    · exact Or.inl h1
    · exact Or.inr h1
  · split at h
    · exact Or.inr (Option.some_inj.mp h).symm
    · exact absurd h (by simp)

theorem mapped_char_slug {s : Str} {c : Char}
    (h : c ∈ (s.map Char.toLower).filterMap slugMapRune) : slugChar c := by
  rw [List.mem_filterMap] at h
  obtain ⟨a, ha, hmap⟩ := h
  rw [List.mem_map] at ha
  obtain ⟨a0, _, rfl⟩ := ha
  rcases slugMapRune_out hmap with ⟨rfl, halpha | hdigit⟩ | rfl
  · -- a letter surviving the map: toLower output cannot be uppercase
    have hupper : ¬ (65 ≤ (Char.toLower a0).toNat ∧ (Char.toLower a0).toNat ≤ 90) := by
      rw [toLower_toNat]
      split <;> omega
    rcases Bool.or_eq_true_iff.mp halpha with hu | hl
    · exact absurd (isUpper_iff.mp hu) hupper
    · exact slugChar_of_toNat (Or.inl (isLower_iff.mp hl))
  · exact slugChar_of_toNat (Or.inr (Or.inl (isDigit_iff.mp hdigit)))
  · exact slugChar_of_toNat (Or.inr (Or.inr rfl))

theorem replaceDD_mem {s : Str} {c : Char} (h : c ∈ replaceDD s) : c ∈ s := by
  induction s using replaceDD.induct with
  | case1 => simp [replaceDD] at h
  | case2 x =>
    simp only [replaceDD] at h
    exact h
  | case3 c1 c2 rest hdd ih =>
    simp only [replaceDD, hdd, if_pos] at h
    have hc1 : c1 = '-' := by
      have := Bool.and_eq_true_iff.mp hdd
      exact decide_eq_true_eq.mp this.1
    rcases List.mem_cons.mp h with rfl | h
    · rw [hc1]; exact List.mem_cons_self _ _
    · exact List.mem_cons_of_mem _ (List.mem_cons_of_mem _ (ih h))
  | case4 c1 c2 rest hdd ih =>
    simp only [replaceDD, hdd] at h
    rcases List.mem_cons.mp h with rfl | h
    · exact List.mem_cons_self _ _
    · exact List.mem_cons_of_mem _ (ih h)

theorem collapseLoop_mem {c : Char} :
    ∀ (fuel : Nat) (s : Str), c ∈ collapseLoop fuel s → c ∈ s := by
  intro fuel
  induction fuel with
  | zero => intro s h; exact h
  | succ n ih =>
    intro s h
    rw [collapseLoop] at h
    by_cases hdd : hasDD s = true
    · rw [if_pos hdd] at h
      exact replaceDD_mem (ih _ h)
    · rw [if_neg (by simp [Bool.of_not_eq_true hdd])] at h
      exact h

theorem collapseLoop_noDD :
    ∀ (fuel : Nat) (s : Str), s.length ≤ fuel → hasDD (collapseLoop fuel s) = false := by
  intro fuel
  induction fuel with
  | zero =>
    intro s h
    have : s = [] := List.length_eq_zero.mp (Nat.le_zero.mp h)
    subst this
    rfl
  | succ n ih =>
    intro s h
    rw [collapseLoop]
    by_cases hdd : hasDD s = true
    · rw [if_pos hdd]
      exact ih _ (by have := replaceDD_length_lt s hdd; omega)
    · rw [if_neg (by simp [Bool.of_not_eq_true hdd])]
      exact Bool.of_not_eq_true hdd

theorem collapseDashes_mem {s : Str} {c : Char} (h : c ∈ collapseDashes s) : c ∈ s :=
  collapseLoop_mem _ _ h

theorem collapseDashes_noDD (s : Str) : hasDD (collapseDashes s) = false :=
  collapseLoop_noDD _ _ (Nat.le_refl _)

theorem hasDD_cons2 (c1 c2 : Char) (l : Str) :
    hasDD (c1 :: c2 :: l) = ((c1 = '-' && c2 = '-') || hasDD (c2 :: l)) := rfl

theorem hasDD_append_dd (a b : Str) : hasDD (a ++ '-' :: '-' :: b) = true := by
  induction a with
  | nil => simp [hasDD_cons2]
  | cons x a' ih =>
    cases a' with
    | nil =>
      simp [hasDD_cons2]
    | cons y a'' =>
      simp only [List.cons_append] at ih ⊢
      rw [hasDD_cons2, ih]
      simp

theorem hasDD_exists {s : Str} (h : hasDD s = true) :
    ∃ a b, s = a ++ '-' :: '-' :: b := by
  induction s using hasDD.induct with
  | case1 => simp [hasDD] at h
  | case2 x => simp [hasDD] at h
  | case3 c1 c2 rest ih =>
    simp only [hasDD, Bool.or_eq_true, Bool.and_eq_true, decide_eq_true_eq] at h
    rcases h with ⟨rfl, rfl⟩ | h
    · exact ⟨[], rest, rfl⟩
    · obtain ⟨a, b, hab⟩ := ih h
      exact ⟨c1 :: a, b, by rw [hab]; rfl⟩

theorem noDD_infix {m A B : Str} (h : hasDD (A ++ m ++ B) = false) : hasDD m = false := by
  by_contra hc
  have hm : hasDD m = true := Bool.of_not_eq_false hc
  obtain ⟨a, b, rfl⟩ := hasDD_exists hm
  have : A ++ (a ++ '-' :: '-' :: b) ++ B = (A ++ a) ++ '-' :: '-' :: (b ++ B) := by
    simp [List.append_assoc]
  rw [this, hasDD_append_dd] at h
  exact absurd h (by simp)

theorem trimDashes_infix (s : Str) : ∃ A B, s = A ++ trimDashes s ++ B := by
  unfold trimDashes
  refine ⟨s.takeWhile (· == '-'),
    ((s.dropWhile (· == '-')).reverse.takeWhile (· == '-')).reverse, ?_⟩
  conv_lhs => rw [← List.takeWhile_append_dropWhile (p := (· == '-')) (l := s)]
  rw [List.append_assoc]
  congr 1
  conv_lhs =>
    rw [← List.reverse_reverse (s.dropWhile (· == '-'))]
    rw [← List.takeWhile_append_dropWhile (p := (· == '-'))
      (l := (s.dropWhile (· == '-')).reverse)]
  rw [List.reverse_append]

theorem trimDashes_mem {s : Str} {c : Char} (h : c ∈ trimDashes s) : c ∈ s := by
  obtain ⟨A, B, hs⟩ := trimDashes_infix s
  rw [hs]
  simp only [List.mem_append]
  exact Or.inl (Or.inr h)

theorem trimDashes_noDD {s : Str} (h : hasDD s = false) : hasDD (trimDashes s) = false := by
  obtain ⟨A, B, hs⟩ := trimDashes_infix s
  rw [hs] at h
  exact noDD_infix h

theorem head_dropWhile_ne {l : Str} : (l.dropWhile (· == '-')).head? ≠ some '-' := by
  intro hc
  have := List.head?_dropWhile_not (· == '-') l
  rw [hc] at this
  simp at this

theorem trimDashes_head (s : Str) : (trimDashes s).head? ≠ some '-' := by
  unfold trimDashes
  set u := s.dropWhile (· == '-') with hu
  set v := u.reverse.dropWhile (· == '-') with hv
  rw [List.head?_reverse]
  cases hve : v with
  | nil => simp
  | cons x v' =>
    have hsuffix : ∃ t, u.reverse = t ++ v := by
      exact ⟨u.reverse.takeWhile (· == '-'), (List.takeWhile_append_dropWhile _ _).symm⟩
    obtain ⟨t, ht⟩ := hsuffix
    have : v.getLast? = u.reverse.getLast? := by
      rw [ht, List.getLast?_append]
      rw [hve]
      simp [List.getLast?_cons]
    rw [← hve, this, List.getLast?_reverse]
    exact head_dropWhile_ne

theorem trimDashes_getLast (s : Str) : (trimDashes s).getLast? ≠ some '-' := by
  unfold trimDashes
  rw [List.getLast?_reverse]
  exact head_dropWhile_ne

theorem slugChar_toLower_fixed {c : Char} (h : slugChar c) : Char.toLower c = c := by
  rw [char_eq_iff_toNat, toLower_toNat]
  rcases slugChar_toNat h with ⟨h1, h2⟩ | ⟨h1, h2⟩ | h1 <;> split <;> omega

theorem slugChar_mapRune {c : Char} (h : slugChar c) : slugMapRune c = some c := by
  rcases slugChar_toNat h with ⟨h1, h2⟩ | ⟨h1, h2⟩ | h1
  · unfold slugMapRune
    rw [if_pos]
    rw [Bool.or_eq_true_iff, Char.isAlpha, Bool.or_eq_true_iff]
    exact Or.inl (Or.inr (isLower_iff.mpr ⟨h1, h2⟩))
  · unfold slugMapRune
    rw [if_pos]
    exact Bool.or_eq_true_iff.mpr (Or.inr (isDigit_iff.mpr ⟨h1, h2⟩))
  · have : c = '-' := by
      rw [char_eq_iff_toNat, h1]; rfl
    subst this
    rfl

theorem map_toLower_id {t : Str} (h : ∀ c ∈ t, slugChar c) : t.map Char.toLower = t := by
  induction t with
  | nil => rfl
  | cons c r ih =>
    rw [List.map_cons, slugChar_toLower_fixed (h c (List.mem_cons_self _ _)),
      ih (fun x hx => h x (List.mem_cons_of_mem _ hx))]

theorem filterMap_slug_id {t : Str} (h : ∀ c ∈ t, slugMapRune c = some c) :
    t.filterMap slugMapRune = t := by
  induction t with
  | nil => rfl
  | cons c r ih =>
    rw [List.filterMap_cons, h c (List.mem_cons_self _ _),
      ih (fun x hx => h x (List.mem_cons_of_mem _ hx))]

theorem collapseLoop_id {s : Str} (h : hasDD s = false) :
    ∀ fuel, collapseLoop fuel s = s := by
  intro fuel
  cases fuel with
  | zero => rfl
  | succ n =>
    rw [collapseLoop, if_neg (by simp [h])]

theorem collapseDashes_id {s : Str} (h : hasDD s = false) : collapseDashes s = s :=
  collapseLoop_id h _

theorem dropWhile_dash_id {l : Str} (h : l.head? ≠ some '-') :
    l.dropWhile (· == '-') = l := by
  cases l with
  | nil => rfl
  | cons x r =>
    have hx : (x == '-') = false := by
      rw [beq_eq_false_iff_ne]
      intro hc
      exact h (by rw [hc]; rfl)
    simp only [List.dropWhile_cons, hx, Bool.false_eq_true, if_false]

theorem trimDashes_id {t : Str} (hh : t.head? ≠ some '-') (hl : t.getLast? ≠ some '-') :
    trimDashes t = t := by
  unfold trimDashes
  rw [dropWhile_dash_id hh]
  rw [dropWhile_dash_id (by rw [List.head?_reverse]; exact hl)]
  exact List.reverse_reverse t

end Pager

namespace Pager

/-- C3: for every heading text input string, the candidate id derived by
slugify contains only lowercase letters, digits, and hyphens
(in the ASCII model of the Go unicode classifiers), contains no two
adjacent hyphens, and has no leading or trailing hyphen. -/
theorem slugify_shape (s : Str) :
    (∀ c ∈ slugify s, slugChar c) ∧
    hasDD (slugify s) = false ∧
    (slugify s).head? ≠ some '-' ∧
    (slugify s).getLast? ≠ some '-' := by
  refine ⟨?_, ?_, trimDashes_head _, trimDashes_getLast _⟩
  · intro c hc
    exact mapped_char_slug (collapseDashes_mem (trimDashes_mem hc))
  · exact trimDashes_noDD (collapseDashes_noDD _)

/-- Witness for slugify_shape evaluated on the concrete input
"Hello, World!", whose slug is "hello-world". -/
theorem slugify_shape_witness :
    slugChar 'h' ∧ hasDD (slugify ("Hello, World!".data)) = false := by
  have h := slugify_shape ("Hello, World!".data)
  exact ⟨h.1 'h' (by decide), h.2.1⟩

/-- C10: slugify is idempotent; every derived heading id is a fixed point
of slugification. -/
theorem slugify_idem (s : Str) : slugify (slugify s) = slugify s := by
  obtain ⟨hchar, hdd, hhead, hlast⟩ := slugify_shape s
  show trimDashes (collapseDashes (((slugify s).map Char.toLower).filterMap slugMapRune)) =
    slugify s
  rw [map_toLower_id hchar,
    filterMap_slug_id (fun c hc => slugChar_mapRune (hchar c hc)),
    collapseDashes_id hdd, trimDashes_id hhead hlast]

/-! The identifier registry (uniqueID in src/process.go).  The Go used-set
map of strings to bool is modelled as a list of the strings marked used;
fmt.Sprintf with a %d verb is modelled by natRepr, a structurally
recursive decimal printer proved equal to the Mathlib digit expansion. -/

/-- Character of a single decimal digit. -/
def digitChar (d : Nat) : Char := Char.ofNat (48 + d)

/-- Little-endian decimal digits of n, computed with explicit fuel so that
the definition reduces by kernel computation.  A fuel of n suffices since
the argument strictly decreases. -/
def toDigitsRev (fuel n : Nat) : List Nat :=
  match fuel with
  | 0 => []
  | fuel + 1 => if n = 0 then [] else (n % 10) :: toDigitsRev fuel (n / 10)

/-- Decimal representation of a natural number: the model of
fmt.Sprintf "%d" from the Go standard library. -/
def natRepr (n : Nat) : Str :=
  if n = 0 then ['0'] else ((toDigitsRev n n).reverse.map digitChar)

theorem toDigitsRev_eq_digits : ∀ (fuel n : Nat), n ≤ fuel →
    toDigitsRev fuel n = Nat.digits 10 n := by
  intro fuel
  induction fuel with
  | zero =>
    intro n h
    have : n = 0 := Nat.le_zero.mp h
    subst this
    simp [toDigitsRev]
  | succ m ih =>
    intro n h
    rw [toDigitsRev]
    by_cases hn : n = 0
    · subst hn
      simp
    · rw [if_neg hn]
      have hlt : n / 10 < n := Nat.div_lt_self (Nat.pos_of_ne_zero hn) (by omega)
      rw [ih (n / 10) (by omega)]
      rw [Nat.digits_def' (by omega : (1:Nat) < 10) (Nat.pos_of_ne_zero hn)]

theorem digitChar_inj {d1 d2 : Nat} (h1 : d1 < 10) (h2 : d2 < 10)
    (h : digitChar d1 = digitChar d2) : d1 = d2 := by
  have e1 : (digitChar d1).toNat = 48 + d1 := toNat_ofNat_valid (by omega)
  have e2 : (digitChar d2).toNat = 48 + d2 := toNat_ofNat_valid (by omega)
  rw [h, e2] at e1
  omega

theorem map_digitChar_inj : ∀ (l1 l2 : List Nat), (∀ d ∈ l1, d < 10) → (∀ d ∈ l2, d < 10) →
    l1.map digitChar = l2.map digitChar → l1 = l2 := by
  intro l1
  induction l1 with
  | nil =>
    intro l2 _ _ h
    cases l2 with
    | nil => rfl
    | cons x r => simp at h
  | cons x r ih =>
    intro l2 h1 h2 h
    cases l2 with
    | nil => simp at h
    | cons y t =>
      simp only [List.map_cons, List.cons.injEq] at h
      have hx : x = y := digitChar_inj (h1 x (List.mem_cons_self _ _))
        (h2 y (List.mem_cons_self _ _)) h.1
      rw [hx, ih t (fun d hd => h1 d (List.mem_cons_of_mem _ hd))
        (fun d hd => h2 d (List.mem_cons_of_mem _ hd)) h.2]

theorem digits_all_lt (n : Nat) : ∀ d ∈ Nat.digits 10 n, d < 10 :=
  fun _ hd => Nat.digits_lt_base (by omega) hd

theorem natRepr_inj {m n : Nat} (h : natRepr m = natRepr n) : m = n := by
  unfold natRepr at h
  rw [toDigitsRev_eq_digits m m (Nat.le_refl _), toDigitsRev_eq_digits n n (Nat.le_refl _)] at h
  by_cases hm : m = 0 <;> by_cases hn : n = 0
  · rw [hm, hn]
  · rw [if_pos hm, if_neg hn] at h
    have hlen : (1 : Nat) = (Nat.digits 10 n).length := by
      have := congrArg List.length h
      simpa using this
    obtain ⟨d, hd⟩ : ∃ d, Nat.digits 10 n = [d] := by
      cases hdig : Nat.digits 10 n with
      | nil => rw [hdig] at hlen; simp at hlen
      | cons a t =>
        rw [hdig] at hlen
        simp at hlen
        exact ⟨a, by rw [hlen]⟩
    rw [hd] at h
    simp only [List.reverse_cons, List.reverse_nil, List.nil_append, List.map_cons,
      List.map_nil, List.cons.injEq] at h
    have hd10 : d < 10 := digits_all_lt n d (by rw [hd]; exact List.mem_cons_self _ _)
    have : (0 : Nat) = d := digitChar_inj (by omega) hd10 h.1
    have hzero : Nat.digits 10 n = [0] := by rw [hd, ← this]
    have := Nat.ofDigits_digits 10 n
    rw [hzero] at this
    simp [Nat.ofDigits] at this
    exact absurd this.symm hn
  · rw [if_neg hm, if_pos hn] at h
    have hlen : (Nat.digits 10 m).length = 1 := by
      have := congrArg List.length h
      simpa using this
    obtain ⟨d, hd⟩ : ∃ d, Nat.digits 10 m = [d] := by
      cases hdig : Nat.digits 10 m with
      | nil => rw [hdig] at hlen; simp at hlen
      | cons a t =>
        rw [hdig] at hlen
        simp at hlen
        exact ⟨a, by rw [hlen]⟩
    rw [hd] at h
    simp only [List.reverse_cons, List.reverse_nil, List.nil_append, List.map_cons,
      List.map_nil, List.cons.injEq] at h
    have hd10 : d < 10 := digits_all_lt m d (by rw [hd]; exact List.mem_cons_self _ _)
    have : d = 0 := digitChar_inj hd10 (by omega) h.1
    have hzero : Nat.digits 10 m = [0] := by rw [hd, this]
    have := Nat.ofDigits_digits 10 m
    rw [hzero] at this
    simp [Nat.ofDigits] at this
    exact absurd this.symm hm
  · rw [if_neg hm, if_neg hn] at h
    have := map_digitChar_inj _ _
      (fun d hd => digits_all_lt m d (by simpa using hd))
      (fun d hd => digits_all_lt n d (by simpa using hd)) h
    have hrev := congrArg List.reverse this
    simp only [List.reverse_reverse] at hrev
    have := congrArg (Nat.ofDigits 10) hrev
    rwa [Nat.ofDigits_digits, Nat.ofDigits_digits] at this

/-- The candidate produced for the i-th collision: fmt.Sprintf "%s-%d". -/
def suffixed (id : Str) (k : Nat) : Str := id ++ '-' :: natRepr k

theorem suffixed_inj {id : Str} {j k : Nat} (h : suffixed id j = suffixed id k) : j = k := by
  unfold suffixed at h
  have := List.append_cancel_left h
  exact natRepr_inj (List.cons.inj this).2

/-- The collision loop of uniqueID, with explicit fuel.  A fuel exceeding
the size of the used-set always finds a free candidate before running out
(uniqueIDLoop_spec below), so the zero-fuel branch is unreachable and the
definition faithfully models the unbounded Go loop. -/
def uniqueIDLoop (st : List Str) (id : Str) : Nat → Nat → Str × List Str
  | _, 0 => (id, id :: st)
  | i, fuel + 1 =>
    if suffixed id i ∈ st then uniqueIDLoop st id (i + 1) fuel
    else (suffixed id i, suffixed id i :: st)

/-- uniqueID from src/process.go: reserve the candidate if unused,
otherwise append -1, -2, ... until an unused name is found; the result is
marked used.  Returns the assigned id together with the updated used-set. -/
def uniqueID (st : List Str) (id : Str) : Str × List Str :=
  if id ∈ st then uniqueIDLoop st id 1 (st.length + 1)
  else (id, id :: st)

theorem exists_free (st : List Str) (id : Str) (i fuel : Nat) (h : st.length < fuel) :
    ∃ j, j < fuel ∧ suffixed id (i + j) ∉ st := by
  by_contra hc
  push_neg at hc
  have hnd : ((List.range fuel).map (fun j => suffixed id (i + j))).Nodup := by
    refine List.Nodup.map ?_ (List.nodup_range _)
    intro a b hab
    have := suffixed_inj hab
    omega
  have hsub : ((List.range fuel).map (fun j => suffixed id (i + j))) ⊆ st := by
    intro x hx
    obtain ⟨j, hj, rfl⟩ := List.mem_map.mp hx
    exact hc j (List.mem_range.mp hj)
  have hlen := (List.subperm_of_subset hnd hsub).length_le
  simp only [List.length_map, List.length_range] at hlen
  omega

theorem uniqueIDLoop_spec (st : List Str) (id : Str) :
    ∀ (fuel i : Nat), (∃ j, j < fuel ∧ suffixed id (i + j) ∉ st) →
    ∃ k, i ≤ k ∧ uniqueIDLoop st id i fuel = (suffixed id k, suffixed id k :: st) ∧
      suffixed id k ∉ st ∧ (∀ m, i ≤ m → m < k → suffixed id m ∈ st) := by
  intro fuel
  induction fuel with
  | zero =>
    rintro i ⟨j, hj, _⟩
    omega
  | succ n ih =>
    rintro i ⟨j, hj, hfree⟩
    rw [uniqueIDLoop]
    by_cases hc : suffixed id i ∈ st
    · rw [if_pos hc]
      have hj0 : j ≠ 0 := by
        rintro rfl
        exact hfree hc
      obtain ⟨k, hik, heq, hfreeK, hmin⟩ := ih (i + 1)
        ⟨j - 1, by omega, by
          have harg : i + 1 + (j - 1) = i + j := by omega
          rw [harg]
          exact hfree⟩
      refine ⟨k, by omega, heq, hfreeK, ?_⟩
      intro m hm1 hm2
      rcases Nat.eq_or_lt_of_le hm1 with rfl | hlt
      · exact hc
      · exact hmin m (by omega) hm2
    · rw [if_neg hc]
      exact ⟨i, Nat.le_refl _, rfl, hc, fun m hm1 hm2 => by omega⟩

/-- C2: the reserve operation of the identifier registry returns an unused
candidate unchanged, resolves a used candidate by the smallest numeric
suffix -k with k checked sequentially from 1, always succeeds while
marking its result used, and on three requests of "intro" against a fresh
registry yields "intro", "intro-1", "intro-2" in order. -/
theorem uniqueID_spec (st : List Str) (id : Str) :
    (id ∉ st → uniqueID st id = (id, id :: st)) ∧
    (id ∈ st → ∃ k, 1 ≤ k ∧
      uniqueID st id = (suffixed id k, suffixed id k :: st) ∧
      suffixed id k ∉ st ∧ (∀ m, 1 ≤ m → m < k → suffixed id m ∈ st)) ∧
    ((uniqueID [] ("intro".data)).1 = "intro".data ∧
      (uniqueID (uniqueID [] ("intro".data)).2 ("intro".data)).1 = "intro-1".data ∧
      (uniqueID (uniqueID (uniqueID [] ("intro".data)).2 ("intro".data)).2
        ("intro".data)).1 = "intro-2".data) := by
  refine ⟨?_, ?_, by decide⟩
  · intro h
    unfold uniqueID
    rw [if_neg h]
  · intro h
    unfold uniqueID
    rw [if_pos h]
    exact uniqueIDLoop_spec st id (st.length + 1) 1
      (exists_free st id 1 (st.length + 1) (Nat.lt_succ_self _))

/-- Witness for uniqueID_spec: applies the theorem at the concrete used-set
containing only "intro" and candidate "intro", discharging both membership
hypotheses. -/
theorem uniqueID_spec_witness :
    uniqueID ["x".data] ("intro".data) = ("intro".data, ["intro".data, "x".data]) ∧
    ∃ k, 1 ≤ k ∧
      uniqueID ["intro".data] ("intro".data) =
        (suffixed "intro".data k, suffixed "intro".data k :: ["intro".data]) ∧
      suffixed "intro".data k ∉ ["intro".data] ∧
      (∀ m, 1 ≤ m → m < k → suffixed "intro".data m ∈ ["intro".data]) :=
  ⟨(uniqueID_spec ["x".data] ("intro".data)).1 (by decide),
    (uniqueID_spec ["intro".data] ("intro".data)).2.1 (by decide)⟩

/-! The HTML tree and the tree augmenter (processNode in src/process.go).
An html.Node of the Go x/net/html package is an element with an ordered
attribute list and owned children, a text node, or a comment; processNode
only ever mutates attribute lists. -/

/-- Attribute list: ordered key and value pairs, keys not necessarily
unique. -/
abbrev Attrs := List (Str × Str)

/-- Parsed HTML node. -/
inductive Node where
  | element (tag : Str) (attrs : Attrs) (children : List Node)
  | text (data : Str)
  | comment (data : Str)

/-- Warnings emitted through warn (a log line in the Go source); each
constructor records one format string of src/process.go together with its
arguments. -/
inductive Warning where
  | missingAlt (src : Str)
  | emptyAttrVal (tag : Str) (attr : Str)
  | missingFileAttr (tag : Str) (attr : Str) (val : Str)
  | emptyHref
  | noTextNoAriaLabel (href : Str)
  | missingId (link : Str)
  | missingLinkFile (link : Str)
deriving DecidableEq

/-- Heading record collected during the walk. -/
structure Heading where
  level : Nat
  id : Str
  text : Str
deriving DecidableEq

/-- The mutable processState of the walk (src/process.go): the heading
list, the used-id set (a Go map modelled as the list of members), the
collected local links, and the emitted warnings. -/
structure PState where
  headings : List Heading
  ids : List Str
  links : List Str
  warnings : List Warning
deriving DecidableEq

/-- Initial state of one pipeline invocation. -/
def PState.init : PState := ⟨[], [], [], []⟩

/-- Model of the filesystem as seen by the walk: os.Stat success, and the
result of os.Open plus image.DecodeConfig (none models any open or decode
failure; some w h models a recognized image header). -/
structure FSModel where
  statOk : Str → Bool
  imageConfig : Str → Option (Nat × Nat)

/-- Model of filepath.Join from the Go standard library (external glue):
the claims under verification never depend on its path-cleaning details,
only on which joined path is consulted. -/
def joinPath (dir p : Str) : Str := dir ++ '/' :: p

def idKey : Str := "id".data
def altKey : Str := "alt".data
def srcKey : Str := "src".data
def posterKey : Str := "poster".data
def hrefKey : Str := "href".data
def targetKey : Str := "target".data
def relKey : Str := "rel".data
def ariaKey : Str := "aria-label".data
def styleKey : Str := "style".data

/-- hasAttr from src/process.go. -/
def hasAttr (attrs : Attrs) (k : Str) : Bool := attrs.any (fun a => a.1 == k)

/-- getAttr from src/process.go: the value of the first attribute with the
given key, or the empty string. -/
def getAttr (attrs : Attrs) (k : Str) : Str :=
  match attrs.find? (fun a => a.1 == k) with
  | some a => a.2
  | none => []

/-- setAttr from src/process.go: overwrite the value of the first
attribute with the given key, appending a new attribute if none exists. -/
def setAttr : Attrs → Str → Str → Attrs
  | [], k, v => [(k, v)]
  | a :: rest, k, v => if a.1 == k then (a.1, v) :: rest else a :: setAttr rest k v

/-- The heading test of processNode: a two-byte tag h1 through h6,
written in the source as a length and byte-range check. -/
def isHeadingTag : Str → Bool
  | [c0, c1] => c0 == 'h' && decide ('1' ≤ c1) && decide (c1 ≤ '6')
  | _ => false

/-- The level computed by processNode: second tag byte minus the zero
digit. -/
def headingLevel : Str → Nat
  | [_, c1] => c1.toNat - 48
  | _ => 0

/-- The id-collection guard of processNode, written in the source as six
string inequalities. -/
def isHeadingName (tag : Str) : Bool :=
  tag == "h1".data || tag == "h2".data || tag == "h3".data ||
  tag == "h4".data || tag == "h5".data || tag == "h6".data

/-- Model of strings.TrimSpace (whitespace in the ASCII model). -/
def trimSpace (s : Str) : Str :=
  ((s.dropWhile Char.isWhitespace).reverse.dropWhile Char.isWhitespace).reverse

/-- The style text fmt.Sprintf "aspect-ratio: %d / %d". -/
def aspectStyle (w h : Nat) : Str :=
  "aspect-ratio: ".data ++ natRepr w ++ " / ".data ++ natRepr h

/-- The style-merging loop of the img branch of processNode: the first
existing style attribute gains "; " and the declaration, otherwise a new
style attribute is appended. -/
def addStyle : Attrs → Str → Attrs
  | [], style => [(styleKey, style)]
  | a :: rest, style =>
    if a.1 == styleKey then (a.1, a.2 ++ "; ".data ++ style) :: rest
    else a :: addStyle rest style

/-- The src and poster missing-file check of processNode for one
attribute name. -/
def checkAttrFile (fs : FSModel) (dir : Str) (tag : Str) (attrs : Attrs) (attr : Str)
    (st : PState) : PState :=
  if hasAttr attrs attr then
    if (getAttr attrs attr).isEmpty then
      { st with warnings := st.warnings ++ [Warning.emptyAttrVal tag attr] }
    else if !startsWith (getAttr attrs attr) "http".data &&
        !startsWith (getAttr attrs attr) "data:".data &&
        !startsWith (getAttr attrs attr) "//".data then
      if fs.statOk (joinPath dir (getAttr attrs attr)) then st
      else
        { st with warnings := st.warnings ++
            [Warning.missingFileAttr tag attr (getAttr attrs attr)] }
    else st
  else st

/-- Heading auto-id rule of processNode (first block of the element
branch in src/process.go). -/
def stepHeading (tag childText : Str) (x : Attrs × PState) : Attrs × PState :=
  if isHeadingTag tag then
    let text := childText
    let level := headingLevel tag
    if !hasAttr x.1 idKey then
      let slug := slugify text
      if !slug.isEmpty then
        let r := uniqueID x.2.ids slug
        (x.1 ++ [(idKey, r.1)],
          { x.2 with ids := r.2,
                     headings := x.2.headings ++ [⟨level, r.1, trimSpace text⟩] })
      else x
    else
      let r := uniqueID x.2.ids (getAttr x.1 idKey)
      (setAttr x.1 idKey r.1,
        { x.2 with ids := r.2,
                   headings := x.2.headings ++ [⟨level, r.1, trimSpace text⟩] })
  else x

/-- Generic id collision resolution of processNode (second block). -/
def stepCollectId (tag : Str) (x : Attrs × PState) : Attrs × PState :=
  if !isHeadingName tag && hasAttr x.1 idKey then
    let r := uniqueID x.2.ids (getAttr x.1 idKey)
    (setAttr x.1 idKey r.1, { x.2 with ids := r.2 })
  else x

/-- The missing-alt warning of the img branch of processNode. -/
def imgAltWarn (x : Attrs × PState) : PState :=
  if !hasAttr x.1 altKey then
    { x.2 with warnings := x.2.warnings ++ [Warning.missingAlt (getAttr x.1 srcKey)] }
  else x.2

/-- The aspect-ratio injection of the img branch of processNode. -/
def imgStyle (fs : FSModel) (dir : Str) (attrs : Attrs) (stw : PState) : Attrs × PState :=
  if !(getAttr attrs srcKey).isEmpty && !startsWith (getAttr attrs srcKey) "http".data then
    match fs.imageConfig (joinPath dir (getAttr attrs srcKey)) with
    | some wh => (addStyle attrs (aspectStyle wh.1 wh.2), stw)
    | none => (attrs, stw)
  else (attrs, stw)

/-- Image sizing and missing-alt warning of processNode (third block). -/
def stepImg (fs : FSModel) (dir tag : Str) (x : Attrs × PState) : Attrs × PState :=
  if tag == "img".data then imgStyle fs dir x.1 (imgAltWarn x) else x

/-- The src and poster loop of processNode (fourth block). -/
def stepFileChecks (fs : FSModel) (dir tag : Str) (x : Attrs × PState) : Attrs × PState :=
  (x.1, checkAttrFile fs dir tag x.1 posterKey (checkAttrFile fs dir tag x.1 srcKey x.2))

/-- The external-link rewriting, empty-href warning and local-link
collection of the anchor branch of processNode. -/
def anchorCore (href : Str) (x : Attrs × PState) : Attrs × PState :=
  if startsWith href "http://".data || startsWith href "https://".data then
    let attrsT :=
      if !hasAttr x.1 targetKey then x.1 ++ [(targetKey, "_blank".data)]
      else x.1
    let attrsR :=
      if !hasAttr attrsT relKey then attrsT ++ [(relKey, "noopener".data)]
      else attrsT
    (attrsR, x.2)
  else if href.isEmpty then
    (x.1, { x.2 with warnings := x.2.warnings ++ [Warning.emptyHref] })
  else
    (x.1, { x.2 with links := x.2.links ++ [href] })

/-- The icon-only-link accessibility warning of the anchor branch. -/
def anchorAria (childText href : Str) (y : Attrs × PState) : Attrs × PState :=
  if (trimSpace childText).isEmpty && !hasAttr y.1 ariaKey then
    (y.1, { y.2 with warnings := y.2.warnings ++ [Warning.noTextNoAriaLabel href] })
  else y

/-- Anchor rewriting, link collection and the icon-link accessibility
check of processNode (fifth block). -/
def stepAnchor (tag childText : Str) (x : Attrs × PState) : Attrs × PState :=
  if tag == "a".data then
    anchorAria childText (getAttr x.1 hrefKey) (anchorCore (getAttr x.1 hrefKey) x)
  else x

/-- The per-element part of processNode (src/process.go), in source
order: heading auto-id, generic id collision resolution, img sizing and
alt warning, src and poster file checks, anchor rewriting and
collection. -/
def processElemAttrs (fs : FSModel) (dir : Str) (tag : Str) (childText : Str)
    (attrs0 : Attrs) (st0 : PState) : Attrs × PState :=
  stepAnchor tag childText
    (stepFileChecks fs dir tag
      (stepImg fs dir tag
        (stepCollectId tag
          (stepHeading tag childText (attrs0, st0)))))

mutual

/-- textContent from src/process.go: a text node yields its data,
any other node concatenates the text of its children in order. -/
def textContent : Node → Str
  | .text d => d
  | .comment _ => []
  | .element _ _ cs => textContentList cs

def textContentList : List Node → Str
  | [] => []
  | n :: ns => textContent n ++ textContentList ns

end

mutual

/-- processNode from src/process.go: apply the per-element rules, then
recurse into the children left to right, threading the state. -/
def processNode (fs : FSModel) (dir : Str) : Node → PState → Node × PState
  | .text d, st => (.text d, st)
  | .comment d, st => (.comment d, st)
  | .element tag attrs cs, st =>
    let r := processElemAttrs fs dir tag (textContentList cs) attrs st
    let rc := processNodes fs dir cs r.2
    (.element tag r.1 rc.1, rc.2)

def processNodes (fs : FSModel) (dir : Str) : List Node → PState → List Node × PState
  | [], st => ([], st)
  | n :: ns, st =>
    let r := processNode fs dir n st
    let rs := processNodes fs dir ns r.2
    (r.1 :: rs.1, rs.2)

end

mutual

/-- The id attribute values carried by the elements of a tree, in
pre-order. -/
def nodeIds : Node → List Str
  | .element _ attrs cs =>
    (if hasAttr attrs idKey then [getAttr attrs idKey] else []) ++ nodesIds cs
  | .text _ => []
  | .comment _ => []

def nodesIds : List Node → List Str
  | [] => []
  | n :: ns => nodeIds n ++ nodesIds ns

end

/-! Basic laws of the attribute helpers. -/

theorem getAttr_setAttr_self (attrs : Attrs) (k v : Str) :
    getAttr (setAttr attrs k v) k = v := by
  induction attrs with
  | nil => simp [setAttr, getAttr, List.find?]
  | cons a rest ih =>
    by_cases hk : (a.1 == k) = true
    · simp only [setAttr, hk, if_pos]
      simp [getAttr, List.find?, hk]
    · simp only [setAttr, hk, if_neg, Bool.false_eq_true, not_false_iff]
      simp only [getAttr, List.find?] at ih ⊢
      rw [show (a.1 == k) = false from Bool.of_not_eq_true hk]
      exact ih

theorem hasAttr_setAttr_self (attrs : Attrs) (k v : Str) :
    hasAttr (setAttr attrs k v) k = true := by
  induction attrs with
  | nil => simp [setAttr, hasAttr]
  | cons a rest ih =>
    by_cases hk : (a.1 == k) = true
    · simp [setAttr, hk, hasAttr]
    · simp only [setAttr, hk, if_neg, Bool.false_eq_true, not_false_iff]
      simp only [hasAttr, List.any_cons] at ih ⊢
      rw [show (a.1 == k) = false from Bool.of_not_eq_true hk]
      simpa using ih

theorem getAttr_setAttr_ne (attrs : Attrs) {k k' : Str} (v : Str) (h : k' ≠ k) :
    getAttr (setAttr attrs k v) k' = getAttr attrs k' := by
  induction attrs with
  | nil =>
    simp only [setAttr, getAttr, List.find?]
    rw [show (k == k') = false from beq_eq_false_iff_ne.mpr (Ne.symm h)]
  | cons a rest ih =>
    by_cases hk : (a.1 == k) = true
    · have ha : a.1 = k := beq_iff_eq.mp hk
      simp only [setAttr, hk, if_pos]
      simp only [getAttr, List.find?]
      rw [show (a.1 == k') = false from beq_eq_false_iff_ne.mpr (by rw [ha]; exact Ne.symm h)]
    · simp only [setAttr, hk, if_neg, Bool.false_eq_true, not_false_iff]
      simp only [getAttr, List.find?] at ih ⊢
      cases hk' : (a.1 == k') with
      | true => rfl
      | false => exact ih

theorem hasAttr_setAttr_ne (attrs : Attrs) {k k' : Str} (v : Str) (h : k' ≠ k) :
    hasAttr (setAttr attrs k v) k' = hasAttr attrs k' := by
  induction attrs with
  | nil =>
    simp only [setAttr, hasAttr, List.any_cons, List.any_nil]
    rw [show (k == k') = false from beq_eq_false_iff_ne.mpr (Ne.symm h)]
    rfl
  | cons a rest ih =>
    by_cases hk : (a.1 == k) = true
    · have ha : a.1 = k := beq_iff_eq.mp hk
      simp only [setAttr, hk, if_pos]
      simp only [hasAttr, List.any_cons]
    · simp only [setAttr, hk, if_neg, Bool.false_eq_true, not_false_iff]
      simp only [hasAttr, List.any_cons] at ih ⊢
      rw [ih]

theorem getAttr_append_single_ne (attrs : Attrs) {k k' : Str} (v : Str) (h : k' ≠ k) :
    getAttr (attrs ++ [(k, v)]) k' = getAttr attrs k' := by
  induction attrs with
  | nil =>
    simp only [List.nil_append, getAttr, List.find?]
    rw [show (k == k') = false from beq_eq_false_iff_ne.mpr (Ne.symm h)]
  | cons a rest ih =>
    simp only [List.cons_append, getAttr, List.find?] at ih ⊢
    cases hk' : (a.1 == k') with
    | true => rfl
    | false => exact ih

theorem hasAttr_append_single_ne (attrs : Attrs) {k k' : Str} (v : Str) (h : k' ≠ k) :
    hasAttr (attrs ++ [(k, v)]) k' = hasAttr attrs k' := by
  simp only [hasAttr, List.any_append, List.any_cons, List.any_nil]
  rw [show (k == k') = false from beq_eq_false_iff_ne.mpr (Ne.symm h)]
  simp

theorem getAttr_append_single_self (attrs : Attrs) {k : Str} (v : Str)
    (h : hasAttr attrs k = false) : getAttr (attrs ++ [(k, v)]) k = v := by
  induction attrs with
  | nil => simp [getAttr, List.find?]
  | cons a rest ih =>
    simp only [hasAttr, List.any_cons, Bool.or_eq_false_iff] at h
    simp only [List.cons_append, getAttr, List.find?] at ih ⊢
    rw [h.1]
    exact ih (by simp only [hasAttr]; exact h.2)

theorem hasAttr_append_single_self (attrs : Attrs) (k v : Str) :
    hasAttr (attrs ++ [(k, v)]) k = true := by
  simp [hasAttr, List.any_append]

theorem getAttr_addStyle_ne (attrs : Attrs) {k' : Str} (s : Str) (h : k' ≠ styleKey) :
    getAttr (addStyle attrs s) k' = getAttr attrs k' := by
  induction attrs with
  | nil =>
    simp only [addStyle, getAttr, List.find?]
    rw [show (styleKey == k') = false from beq_eq_false_iff_ne.mpr (Ne.symm h)]
  | cons a rest ih =>
    by_cases hk : (a.1 == styleKey) = true
    · simp only [addStyle, hk, if_pos]
      simp only [getAttr, List.find?]
      cases hk' : (a.1 == k') with
      | true =>
        exact absurd (beq_iff_eq.mp hk') (by rw [beq_iff_eq.mp hk]; exact Ne.symm h)
      | false => rfl
    · simp only [addStyle, hk, if_neg, Bool.false_eq_true, not_false_iff]
      simp only [getAttr, List.find?] at ih ⊢
      cases hk' : (a.1 == k') with
      | true => rfl
      | false => exact ih

theorem hasAttr_addStyle_ne (attrs : Attrs) {k' : Str} (s : Str) (h : k' ≠ styleKey) :
    hasAttr (addStyle attrs s) k' = hasAttr attrs k' := by
  induction attrs with
  | nil =>
    simp only [addStyle, hasAttr, List.any_cons, List.any_nil]
    rw [show (styleKey == k') = false from beq_eq_false_iff_ne.mpr (Ne.symm h)]
    rfl
  | cons a rest ih =>
    by_cases hk : (a.1 == styleKey) = true
    · simp only [addStyle, hk, if_pos]
      simp only [hasAttr, List.any_cons]
    · simp only [addStyle, hk, if_neg, Bool.false_eq_true, not_false_iff]
      simp only [hasAttr, List.any_cons] at ih ⊢
      rw [ih]

/-! Unconditional facts about uniqueID: the used-set simply gains the
returned id, and the returned id was not used before. -/

theorem uniqueIDLoop_snd (st : List Str) (id : Str) :
    ∀ (fuel i : Nat), (uniqueIDLoop st id i fuel).2 = (uniqueIDLoop st id i fuel).1 :: st := by
  intro fuel
  induction fuel with
  | zero => intro i; rfl
  | succ n ih =>
    intro i
    rw [uniqueIDLoop]
    by_cases hc : suffixed id i ∈ st
    · rw [if_pos hc]
      exact ih (i + 1)
    · rw [if_neg hc]

theorem uniqueID_snd (st : List Str) (id : Str) :
    (uniqueID st id).2 = (uniqueID st id).1 :: st := by
  unfold uniqueID
  by_cases h : id ∈ st
  · rw [if_pos h]
    exact uniqueIDLoop_snd st id _ 1
  · rw [if_neg h]

theorem uniqueID_fresh (st : List Str) (id : Str) : (uniqueID st id).1 ∉ st := by
  unfold uniqueID
  by_cases h : id ∈ st
  · rw [if_pos h]
    obtain ⟨k, _, heq, hfree, _⟩ := uniqueIDLoop_spec st id (st.length + 1) 1
      (exists_free st id 1 (st.length + 1) (Nat.lt_succ_self _))
    rw [heq]
    exact hfree
  · rw [if_neg h]
    exact h

theorem uniqueID_mem_of_mem {st : List Str} {x : Str} (id : Str) (h : x ∈ st) :
    x ∈ (uniqueID st id).2 := by
  rw [uniqueID_snd]
  exact List.mem_cons_of_mem _ h

theorem uniqueID_fst_mem (st : List Str) (id : Str) :
    (uniqueID st id).1 ∈ (uniqueID st id).2 := by
  rw [uniqueID_snd]
  exact List.mem_cons_self _ _

/-! The id-freshness invariant carried through the five element steps. -/

/-- The id attribute of the processed element is freshly reserved: the
base ids survive into the state, and any id attribute the element carries
is in the used-set but was not in the base. -/
def IdsOk (base : List Str) (x : Attrs × PState) : Prop :=
  (∀ y ∈ base, y ∈ x.2.ids) ∧
  (hasAttr x.1 idKey = true →
    getAttr x.1 idKey ∈ x.2.ids ∧ getAttr x.1 idKey ∉ base)

theorem isHeadingName_isHeadingTag {tag : Str} (h : isHeadingName tag = true) :
    isHeadingTag tag = true := by
  unfold isHeadingName at h
  simp only [Bool.or_eq_true, beq_iff_eq] at h
  rcases h with ((((h | h) | h) | h) | h) | h <;> subst h <;> decide

/-- The generic id collection step preserves the invariant: when it runs
it re-reserves a fresh id, when it does not run nothing changes. -/
theorem stepCollectId_IdsOk {base : List Str} {x : Attrs × PState} (tag : Str)
    (h : IdsOk base x) : IdsOk base (stepCollectId tag x) := by
  unfold stepCollectId
  by_cases hcond : (!isHeadingName tag && hasAttr x.1 idKey) = true
  · rw [if_pos hcond]
    refine ⟨fun y hy => uniqueID_mem_of_mem _ (h.1 y hy), fun _ => ?_⟩
    rw [getAttr_setAttr_self]
    refine ⟨uniqueID_fst_mem _ _, fun hc => ?_⟩
    exact uniqueID_fresh x.2.ids (getAttr x.1 idKey) (h.1 _ hc)
  · rw [if_neg hcond]
    exact h

theorem stepCollect_after_heading_IdsOk (tag childText : Str) (attrs0 : Attrs)
    (st0 : PState) :
    IdsOk st0.ids (stepCollectId tag (stepHeading tag childText (attrs0, st0))) := by
  unfold stepHeading
  by_cases hht : isHeadingTag tag = true
  · rw [if_pos hht]
    by_cases hid : hasAttr attrs0 idKey = true
    · -- heading with an author id: reserved and overwritten
      simp only [hid, Bool.not_true, Bool.false_eq_true, if_false]
      refine stepCollectId_IdsOk _ ⟨fun y hy => uniqueID_mem_of_mem _ hy, fun _ => ?_⟩
      rw [getAttr_setAttr_self]
      exact ⟨uniqueID_fst_mem _ _, uniqueID_fresh _ _⟩
    · have hid' : hasAttr attrs0 idKey = false := Bool.of_not_eq_true hid
      by_cases hslug : (slugify childText).isEmpty = true
      · -- empty slug: no id assigned by the heading rule
        simp only [hid', hslug, Bool.not_true, Bool.not_false, if_true,
          Bool.false_eq_true, if_false]
        exact stepCollectId_IdsOk _ ⟨fun y hy => hy, fun hhas => absurd hhas hid⟩
      · -- fresh slug appended
        have hslug' : (slugify childText).isEmpty = false := Bool.of_not_eq_true hslug
        simp only [hid', hslug', Bool.not_true, Bool.not_false, if_true,
          Bool.false_eq_true, if_false]
        refine stepCollectId_IdsOk _ ⟨fun y hy => uniqueID_mem_of_mem _ hy, fun _ => ?_⟩
        rw [getAttr_append_single_self _ _ hid']
        exact ⟨uniqueID_fst_mem _ _, uniqueID_fresh _ _⟩
  · rw [if_neg hht]
    -- not a heading: the generic id collection alone resolves the id
    unfold stepCollectId
    by_cases hid : hasAttr attrs0 idKey = true
    · have hname : isHeadingName tag = false := by
        cases hn : isHeadingName tag with
        | true => exact absurd (isHeadingName_isHeadingTag hn) hht
        | false => rfl
      rw [if_pos (by rw [hname, hid]; rfl)]
      refine ⟨fun y hy => uniqueID_mem_of_mem _ hy, fun _ => ?_⟩
      rw [getAttr_setAttr_self]
      exact ⟨uniqueID_fst_mem _ _, uniqueID_fresh _ _⟩
    · have hcond : (!isHeadingName tag && hasAttr attrs0 idKey) = false := by
        rw [show hasAttr attrs0 idKey = false from Bool.of_not_eq_true hid]
        simp
      rw [hcond]
      simp only [Bool.false_eq_true, if_false]
      refine ⟨fun y hy => hy, fun hhas => ?_⟩
      rw [hhas] at hid
      exact absurd rfl hid

/-- The invariant only looks at the id attribute and the used-set, so any
step that preserves those three observations preserves it. -/
theorem IdsOk_congr {base : List Str} {x y : Attrs × PState}
    (ha : hasAttr y.1 idKey = hasAttr x.1 idKey)
    (hg : getAttr y.1 idKey = getAttr x.1 idKey)
    (hi : y.2.ids = x.2.ids) (h : IdsOk base x) : IdsOk base y := by
  refine ⟨fun z hz => hi ▸ h.1 z hz, fun hh => ?_⟩
  rw [hg, hi]
  exact h.2 (ha ▸ hh)

theorem idKey_ne_styleKey : idKey ≠ styleKey := by decide
theorem idKey_ne_targetKey : idKey ≠ targetKey := by decide
theorem idKey_ne_relKey : idKey ≠ relKey := by decide

theorem imgAltWarn_ids (x : Attrs × PState) : (imgAltWarn x).ids = x.2.ids := by
  unfold imgAltWarn
  split <;> rfl

theorem imgStyle_attrs_hasAttr (fs : FSModel) (dir : Str) (attrs : Attrs) (stw : PState)
    {k : Str} (hk : k ≠ styleKey) :
    hasAttr (imgStyle fs dir attrs stw).1 k = hasAttr attrs k := by
  unfold imgStyle
  split
  · split
    · exact hasAttr_addStyle_ne _ _ hk
    · rfl
  · rfl

theorem imgStyle_attrs_getAttr (fs : FSModel) (dir : Str) (attrs : Attrs) (stw : PState)
    {k : Str} (hk : k ≠ styleKey) :
    getAttr (imgStyle fs dir attrs stw).1 k = getAttr attrs k := by
  unfold imgStyle
  split
  · split
    · exact getAttr_addStyle_ne _ _ hk
    · rfl
  · rfl

theorem imgStyle_ids (fs : FSModel) (dir : Str) (attrs : Attrs) (stw : PState) :
    (imgStyle fs dir attrs stw).2.ids = stw.ids := by
  unfold imgStyle
  split
  · split <;> rfl
  · rfl

theorem stepImg_IdsOk {base : List Str} {x : Attrs × PState} (fs : FSModel)
    (dir tag : Str) (h : IdsOk base x) : IdsOk base (stepImg fs dir tag x) := by
  unfold stepImg
  by_cases himg : (tag == "img".data) = true
  · rw [if_pos himg]
    exact IdsOk_congr (imgStyle_attrs_hasAttr _ _ _ _ idKey_ne_styleKey)
      (imgStyle_attrs_getAttr _ _ _ _ idKey_ne_styleKey)
      (by rw [imgStyle_ids, imgAltWarn_ids]) h
  · rw [if_neg himg]
    exact h

theorem checkAttrFile_ids (fs : FSModel) (dir tag : Str) (attrs : Attrs)
    (attr : Str) (st : PState) : (checkAttrFile fs dir tag attrs attr st).ids = st.ids := by
  unfold checkAttrFile
  repeat' split
  all_goals rfl

theorem stepFileChecks_IdsOk {base : List Str} {x : Attrs × PState} (fs : FSModel)
    (dir tag : Str) (h : IdsOk base x) : IdsOk base (stepFileChecks fs dir tag x) := by
  unfold stepFileChecks
  refine IdsOk_congr ?_ ?_ ?_ h
  · rfl
  · rfl
  · rw [checkAttrFile_ids, checkAttrFile_ids]

theorem anchorCore_hasAttr (href : Str) (x : Attrs × PState) {k : Str}
    (h1 : k ≠ targetKey) (h2 : k ≠ relKey) :
    hasAttr (anchorCore href x).1 k = hasAttr x.1 k := by
  unfold anchorCore
  split
  · dsimp only
    split
    · split
      · rw [hasAttr_append_single_ne _ _ h2, hasAttr_append_single_ne _ _ h1]
      · rw [hasAttr_append_single_ne _ _ h1]
    · split
      · rw [hasAttr_append_single_ne _ _ h2]
      · rfl
  · split <;> rfl

theorem anchorCore_getAttr (href : Str) (x : Attrs × PState) {k : Str}
    (h1 : k ≠ targetKey) (h2 : k ≠ relKey) :
    getAttr (anchorCore href x).1 k = getAttr x.1 k := by
  unfold anchorCore
  split
  · dsimp only
    split
    · split
      · rw [getAttr_append_single_ne _ _ h2, getAttr_append_single_ne _ _ h1]
      · rw [getAttr_append_single_ne _ _ h1]
    · split
      · rw [getAttr_append_single_ne _ _ h2]
      · rfl
  · split <;> rfl

theorem anchorCore_ids (href : Str) (x : Attrs × PState) :
    (anchorCore href x).2.ids = x.2.ids := by
  unfold anchorCore
  split
  · rfl
  · split <;> rfl

theorem anchorAria_IdsOk {base : List Str} {y x : Attrs × PState}
    (childText href : Str)
    (h1 : hasAttr y.1 idKey = hasAttr x.1 idKey)
    (h2 : getAttr y.1 idKey = getAttr x.1 idKey)
    (h3 : y.2.ids = x.2.ids) (h : IdsOk base x) :
    IdsOk base (anchorAria childText href y) := by
  unfold anchorAria
  split
  · exact IdsOk_congr h1 h2 h3 h
  · exact IdsOk_congr h1 h2 h3 h

theorem stepAnchor_IdsOk {base : List Str} {x : Attrs × PState}
    (tag childText : Str) (h : IdsOk base x) : IdsOk base (stepAnchor tag childText x) := by
  unfold stepAnchor
  by_cases ha : (tag == "a".data) = true
  · rw [if_pos ha]
    exact anchorAria_IdsOk _ _
      (anchorCore_hasAttr _ _ idKey_ne_targetKey idKey_ne_relKey)
      (anchorCore_getAttr _ _ idKey_ne_targetKey idKey_ne_relKey)
      (anchorCore_ids _ _) h
  · rw [if_neg ha]
    exact h
/-- After all five element rules the reserved-id invariant holds. -/
theorem processElemAttrs_IdsOk (fs : FSModel) (dir tag childText : Str)
    (attrs0 : Attrs) (st0 : PState) :
    IdsOk st0.ids (processElemAttrs fs dir tag childText attrs0 st0) :=
  stepAnchor_IdsOk _ _
    (stepFileChecks_IdsOk _ _ _
      (stepImg_IdsOk _ _ _
        (stepCollect_after_heading_IdsOk tag childText attrs0 st0)))

/-! The key invariant of the walk: the used-set only grows, and every id
attribute put into the output tree is freshly reserved, hence pairwise
distinct. -/

mutual

theorem processNode_inv (fs : FSModel) (dir : Str) (n : Node) (st : PState) :
    (∀ x ∈ st.ids, x ∈ (processNode fs dir n st).2.ids) ∧
    (nodeIds (processNode fs dir n st).1).Nodup ∧
    (∀ x ∈ nodeIds (processNode fs dir n st).1,
      x ∈ (processNode fs dir n st).2.ids ∧ x ∉ st.ids) := by
  cases n with
  | text d => simp [processNode, nodeIds]
  | comment d => simp [processNode, nodeIds]
  | element tag attrs cs =>
    have hA := processElemAttrs_IdsOk fs dir tag (textContentList cs) attrs st
    have hC := processNodes_inv fs dir cs
      (processElemAttrs fs dir tag (textContentList cs) attrs st).2
    have hunfold : processNode fs dir (.element tag attrs cs) st =
        (.element tag (processElemAttrs fs dir tag (textContentList cs) attrs st).1
          (processNodes fs dir cs
            (processElemAttrs fs dir tag (textContentList cs) attrs st).2).1,
         (processNodes fs dir cs
            (processElemAttrs fs dir tag (textContentList cs) attrs st).2).2) := by
      rw [processNode]
    rw [hunfold]
    refine ⟨fun x hx => hC.1 x (hA.1 x hx), ?_, ?_⟩
    · simp only [nodeIds]
      by_cases hid : hasAttr
          (processElemAttrs fs dir tag (textContentList cs) attrs st).1 idKey = true
      · rw [if_pos hid, List.singleton_append, List.nodup_cons]
        refine ⟨fun hc => ?_, hC.2.1⟩
        exact (hC.2.2 _ hc).2 (hA.2 hid).1
      · rw [if_neg hid, List.nil_append]
        exact hC.2.1
    · simp only [nodeIds]
      intro x hx
      by_cases hid : hasAttr
          (processElemAttrs fs dir tag (textContentList cs) attrs st).1 idKey = true
      · rw [if_pos hid, List.singleton_append, List.mem_cons] at hx
        rcases hx with rfl | hx
        · exact ⟨hC.1 _ (hA.2 hid).1, (hA.2 hid).2⟩
        · exact ⟨(hC.2.2 x hx).1, fun hmem => (hC.2.2 x hx).2 (hA.1 x hmem)⟩
      · rw [if_neg hid, List.nil_append] at hx
        exact ⟨(hC.2.2 x hx).1, fun hmem => (hC.2.2 x hx).2 (hA.1 x hmem)⟩

theorem processNodes_inv (fs : FSModel) (dir : Str) (ns : List Node) (st : PState) :
    (∀ x ∈ st.ids, x ∈ (processNodes fs dir ns st).2.ids) ∧
    (nodesIds (processNodes fs dir ns st).1).Nodup ∧
    (∀ x ∈ nodesIds (processNodes fs dir ns st).1,
      x ∈ (processNodes fs dir ns st).2.ids ∧ x ∉ st.ids) := by
  cases ns with
  | nil => simp [processNodes, nodesIds]
  | cons n ns' =>
    have h1 := processNode_inv fs dir n st
    have h2 := processNodes_inv fs dir ns' (processNode fs dir n st).2
    have hunfold : processNodes fs dir (n :: ns') st =
        ((processNode fs dir n st).1 ::
          (processNodes fs dir ns' (processNode fs dir n st).2).1,
         (processNodes fs dir ns' (processNode fs dir n st).2).2) := by
      rw [processNodes]
    rw [hunfold]
    refine ⟨fun x hx => h2.1 x (h1.1 x hx), ?_, ?_⟩
    · simp only [nodesIds]
      refine List.Nodup.append h1.2.1 h2.2.1 ?_
      intro a ha1 ha2
      exact (h2.2.2 a ha2).2 ((h1.2.2 a ha1).1)
    · simp only [nodesIds]
      intro x hx
      rcases List.mem_append.mp hx with hx | hx
      · exact ⟨h2.1 x (h1.2.2 x hx).1, (h1.2.2 x hx).2⟩
      · exact ⟨(h2.2.2 x hx).1, fun hmem => (h2.2.2 x hx).2 (h1.1 x hmem)⟩

end

end Pager

namespace Pager

/-- C1: after the Tree Augmenter single pass over any parsed fragment,
starting from the fresh per-pass state, the element id attribute values
present in the augmented tree are pairwise distinct in pre-order, so any
two distinct elements carrying an id carry different values (and the
serialized output, which prints these attributes, preserves this). -/
theorem augmented_ids_unique (fs : FSModel) (dir : Str) (ns : List Node) :
    (nodesIds (processNodes fs dir ns PState.init).1).Nodup :=
  (processNodes_inv fs dir ns PState.init).2.1

/-! External-link rewriting (claim about the anchor branch). -/

theorem hrefKey_ne_idKey : hrefKey ≠ idKey := by decide
theorem targetKey_ne_idKey : targetKey ≠ idKey := by decide
theorem relKey_ne_idKey : relKey ≠ idKey := by decide
theorem targetKey_ne_relKey : targetKey ≠ relKey := by decide
theorem relKey_ne_targetKey : relKey ≠ targetKey := by decide

theorem stepHeading_not_heading {tag : Str} (h : isHeadingTag tag = false)
    (childText : Str) (x : Attrs × PState) : stepHeading tag childText x = x := by
  unfold stepHeading
  rw [h]
  simp

theorem stepCollectId_hasAttr (tag : Str) (x : Attrs × PState) {k : Str}
    (hk : k ≠ idKey) : hasAttr (stepCollectId tag x).1 k = hasAttr x.1 k := by
  unfold stepCollectId
  split
  · exact hasAttr_setAttr_ne _ _ hk
  · rfl

theorem stepCollectId_getAttr (tag : Str) (x : Attrs × PState) {k : Str}
    (hk : k ≠ idKey) : getAttr (stepCollectId tag x).1 k = getAttr x.1 k := by
  unfold stepCollectId
  split
  · exact getAttr_setAttr_ne _ _ hk
  · rfl

theorem stepImg_not_img {tag : Str} (h : (tag == "img".data) = false)
    (fs : FSModel) (dir : Str) (x : Attrs × PState) : stepImg fs dir tag x = x := by
  unfold stepImg
  rw [h]
  simp

theorem anchorAria_fst (childText href : Str) (y : Attrs × PState) :
    (anchorAria childText href y).1 = y.1 := by
  unfold anchorAria
  split <;> rfl

theorem anchorCore_external {href : Str} (x : Attrs × PState)
    (h : (startsWith href "http://".data || startsWith href "https://".data) = true) :
    hasAttr (anchorCore href x).1 targetKey = true ∧
    hasAttr (anchorCore href x).1 relKey = true ∧
    (hasAttr x.1 targetKey = false → getAttr (anchorCore href x).1 targetKey = "_blank".data) ∧
    (hasAttr x.1 targetKey = true →
      getAttr (anchorCore href x).1 targetKey = getAttr x.1 targetKey) ∧
    (hasAttr x.1 relKey = false → getAttr (anchorCore href x).1 relKey = "noopener".data) ∧
    (hasAttr x.1 relKey = true → getAttr (anchorCore href x).1 relKey = getAttr x.1 relKey) := by
  unfold anchorCore
  rw [if_pos h]
  dsimp only
  by_cases ht : hasAttr x.1 targetKey = true
  · rw [if_neg (show ¬ ((!hasAttr x.1 targetKey) = true) by rw [ht]; simp)]
    by_cases hr : hasAttr x.1 relKey = true
    · rw [if_neg (show ¬ ((!hasAttr x.1 relKey) = true) by rw [hr]; simp)]
      exact ⟨ht, hr,
        fun hc => absurd ht (by rw [hc]; simp),
        fun _ => rfl,
        fun hc => absurd hr (by rw [hc]; simp),
        fun _ => rfl⟩
    · have hr' : hasAttr x.1 relKey = false := Bool.of_not_eq_true hr
      rw [if_pos (show (!hasAttr x.1 relKey) = true by rw [hr']; rfl)]
      refine ⟨?_, ?_, fun hc => absurd ht (by rw [hc]; simp),
        fun _ => ?_, fun _ => ?_, fun hc => absurd hc hr⟩
      · rw [hasAttr_append_single_ne _ _ targetKey_ne_relKey]
        exact ht
      · exact hasAttr_append_single_self _ _ _
      · exact getAttr_append_single_ne _ _ targetKey_ne_relKey
      · exact getAttr_append_single_self _ _ hr'
  · have ht' : hasAttr x.1 targetKey = false := Bool.of_not_eq_true ht
    rw [if_pos (show (!hasAttr x.1 targetKey) = true by rw [ht']; rfl)]
    have hrelT : hasAttr (x.1 ++ [(targetKey, "_blank".data)]) relKey = hasAttr x.1 relKey :=
      hasAttr_append_single_ne _ _ relKey_ne_targetKey
    by_cases hr : hasAttr x.1 relKey = true
    · rw [if_neg (show ¬ ((!hasAttr (x.1 ++ [(targetKey, "_blank".data)]) relKey) = true) by
        rw [hrelT, hr]; simp)]
      refine ⟨hasAttr_append_single_self _ _ _, by rw [hrelT]; exact hr,
        fun _ => getAttr_append_single_self _ _ ht',
        fun hc => absurd hc ht,
        fun hc => absurd hr (by rw [hc]; simp),
        fun _ => getAttr_append_single_ne _ _ relKey_ne_targetKey⟩
    · have hr' : hasAttr x.1 relKey = false := Bool.of_not_eq_true hr
      rw [if_pos (show (!hasAttr (x.1 ++ [(targetKey, "_blank".data)]) relKey) = true by
        rw [hrelT, hr']; rfl)]
      refine ⟨?_, hasAttr_append_single_self _ _ _,
        fun _ => ?_, fun hc => absurd hc ht, fun _ => ?_, fun hc => absurd hc hr⟩
      · rw [hasAttr_append_single_ne _ _ targetKey_ne_relKey]
        exact hasAttr_append_single_self _ _ _
      · rw [getAttr_append_single_ne _ _ targetKey_ne_relKey]
        exact getAttr_append_single_self _ _ ht'
      · exact getAttr_append_single_self _ _ (by rw [hrelT]; exact hr')

/-- The attribute list of a node (empty for non-elements). -/
def Node.attrsOf : Node → Attrs
  | .element _ a _ => a
  | .text _ => []
  | .comment _ => []

/-- The attribute list of an element after the Tree Augmenter visits it. -/
def processedAttrs (fs : FSModel) (dir tag : Str) (attrs : Attrs) (cs : List Node)
    (st : PState) : Attrs :=
  ((processNode fs dir (Node.element tag attrs cs) st).1).attrsOf

theorem processedAttrs_eq (fs : FSModel) (dir tag : Str) (attrs : Attrs) (cs : List Node)
    (st : PState) :
    processedAttrs fs dir tag attrs cs st =
      (processElemAttrs fs dir tag (textContentList cs) attrs st).1 := by
  unfold processedAttrs
  rw [processNode]
  rfl

/-- C8: for an anchor element whose href starts with http:// or https://,
the Tree Augmenter ensures target and rel are present afterwards, adds
target equal to _blank exactly when target was absent, adds rel equal to
noopener exactly when rel was absent, and leaves author-supplied target
and rel values (such as rel equal to me) unchanged. -/
theorem external_link_attrs (fs : FSModel) (dir : Str) (attrs : Attrs)
    (cs : List Node) (st : PState)
    (h : (startsWith (getAttr attrs hrefKey) "http://".data ||
          startsWith (getAttr attrs hrefKey) "https://".data) = true) :
    hasAttr (processedAttrs fs dir ("a".data) attrs cs st) targetKey = true ∧
    hasAttr (processedAttrs fs dir ("a".data) attrs cs st) relKey = true ∧
    (hasAttr attrs targetKey = false →
      getAttr (processedAttrs fs dir ("a".data) attrs cs st) targetKey = "_blank".data) ∧
    (hasAttr attrs targetKey = true →
      getAttr (processedAttrs fs dir ("a".data) attrs cs st) targetKey =
        getAttr attrs targetKey) ∧
    (hasAttr attrs relKey = false →
      getAttr (processedAttrs fs dir ("a".data) attrs cs st) relKey = "noopener".data) ∧
    (hasAttr attrs relKey = true →
      getAttr (processedAttrs fs dir ("a".data) attrs cs st) relKey = getAttr attrs relKey) := by
  rw [processedAttrs_eq]
  unfold processElemAttrs
  rw [stepHeading_not_heading (by decide) _ _]
  rw [stepImg_not_img (by decide) _ _ _]
  -- name the state after the id-collection step
  set B := stepCollectId ("a".data) (attrs, st) with hB
  have hBfst : ∀ (k : Str), k ≠ idKey →
      hasAttr B.1 k = hasAttr attrs k ∧ getAttr B.1 k = getAttr attrs k := by
    intro k hk
    exact ⟨stepCollectId_hasAttr _ _ hk, stepCollectId_getAttr _ _ hk⟩
  unfold stepAnchor
  rw [if_pos (by decide : (("a".data : Str) == "a".data) = true)]
  rw [anchorAria_fst]
  have hx1 : (stepFileChecks fs dir ("a".data) B).1 = B.1 := rfl
  have hhref : getAttr (stepFileChecks fs dir ("a".data) B).1 hrefKey =
      getAttr attrs hrefKey := by
    rw [hx1]
    exact (hBfst hrefKey hrefKey_ne_idKey).2
  have hext := @anchorCore_external
    (getAttr (stepFileChecks fs dir ("a".data) B).1 hrefKey)
    (stepFileChecks fs dir ("a".data) B) (by rw [hhref]; exact h)
  obtain ⟨e1, e2, e3, e4, e5, e6⟩ := hext
  have htB := (hBfst targetKey targetKey_ne_idKey).1
  have hgB := (hBfst targetKey targetKey_ne_idKey).2
  have hrB := (hBfst relKey relKey_ne_idKey).1
  have hgrB := (hBfst relKey relKey_ne_idKey).2
  refine ⟨e1, e2, ?_, ?_, ?_, ?_⟩
  · intro hc
    rw [e3 (by rw [hx1, htB]; exact hc)]
  · intro hc
    rw [e4 (by rw [hx1, htB]; exact hc), hx1, hgB]
  · intro hc
    rw [e5 (by rw [hx1, hrB]; exact hc)]
  · intro hc
    rw [e6 (by rw [hx1, hrB]; exact hc), hx1, hgrB]

/-- A trivial filesystem model used only to instantiate witnesses. -/
def fsTriv : FSModel := ⟨fun _ => true, fun _ => none⟩

/-- Witness for external_link_attrs: a concrete anchor with an external
href and an author rel equal to me gains target while rel is untouched. -/
theorem external_link_attrs_witness :
    hasAttr (processedAttrs fsTriv [] ("a".data)
      [(hrefKey, "https://example.com".data), (relKey, "me".data)] [] PState.init)
      targetKey = true ∧
    hasAttr (processedAttrs fsTriv [] ("a".data)
      [(hrefKey, "https://example.com".data), (relKey, "me".data)] [] PState.init)
      relKey = true ∧
    getAttr (processedAttrs fsTriv [] ("a".data)
      [(hrefKey, "https://example.com".data), (relKey, "me".data)] [] PState.init)
      targetKey = "_blank".data ∧
    getAttr (processedAttrs fsTriv [] ("a".data)
      [(hrefKey, "https://example.com".data), (relKey, "me".data)] [] PState.init)
      relKey = "me".data := by
  have h := external_link_attrs fsTriv []
    [(hrefKey, "https://example.com".data), (relKey, "me".data)] [] PState.init
    (by decide)
  refine ⟨h.1, h.2.1, h.2.2.1 (by decide), ?_⟩
  rw [h.2.2.2.2.2 (by decide)]
  decide

/-! The TOC builder (the nested buildTOC of src/process.go). -/

/-- strings.Repeat of a two-space indent, depth times. -/
def tocIndent : Nat → Str
  | 0 => []
  | n + 1 => "  ".data ++ tocIndent n

/-- The list-opening loop of buildTOC: one ul per unit of level increase;
the count argument is the number of iterations the Go loop performs. -/
def openLoop : Nat → Nat → Str
  | _, 0 => []
  | depth, c + 1 => tocIndent depth ++ "<ul>\n".data ++ openLoop (depth + 1) c

/-- The while loop raising depth up to level: emitted text and new depth. -/
def openLists (depth level : Nat) : Str × Nat :=
  (openLoop depth (level - depth), if depth < level then level else depth)

/-- The list-closing loop of buildTOC: closes one list and its enclosing
item per unit of level decrease. -/
def closeLoop : Nat → Nat → Str
  | _, 0 => []
  | depth, c + 1 =>
    tocIndent (depth - 1) ++ "</ul>\n".data ++ tocIndent (depth - 2) ++ "</li>\n".data ++
      closeLoop (depth - 1) c

/-- The while loop lowering depth down to target: emitted text and new
depth. -/
def closeTo (depth target : Nat) : Str × Nat :=
  (closeLoop depth (depth - target), if target < depth then target else depth)

/-- The main loop of buildTOC: walks the headings carrying the current
depth and whether this is the first heading; returns the emitted text and
the final depth. -/
def tocGo (minLevel : Nat) : List Heading → Bool → Nat → Str × Nat
  | [], _, depth => ([], depth)
  | h :: rest, first, depth =>
    let level := h.level - minLevel + 1
    let od : Str × Nat :=
      if first then ("<ul>\n".data, depth + 1)
      else if level > depth then openLists depth level
      else if level < depth then closeTo depth level
      else ([], depth)
    let li := tocIndent od.2 ++ "<li><a href=\"#".data ++ h.id ++ "\">".data ++
      h.text ++ "</a>".data
    let hasChildren :=
      match rest with
      | [] => false
      | h2 :: _ => decide (h2.level - minLevel + 1 > level)
    let tail := if hasChildren then "\n".data else "</li>\n".data
    let r := tocGo minLevel rest false od.2
    (od.1 ++ li ++ tail ++ r.1, r.2)

/-- buildTOC from src/process.go (the nested-list builder): normalize
levels against the minimum level, walk the headings, then close all
remaining open lists and the outer container. -/
def buildTOC (headings : List Heading) : Str :=
  match headings with
  | [] => []
  | h0 :: rest =>
    let minLevel := rest.foldl (fun m h => if h.level < m then h.level else m) h0.level
    let r := tocGo minLevel (h0 :: rest) true 0
    let c := closeTo r.2 1
    r.1 ++ c.1 ++ "</ul>".data

end Pager

namespace Pager

set_option maxHeartbeats 1000000 in
/-- C4: on the heading sequence with levels 2, 3, 3, 2 the TOC builder
emits one outer list holding exactly two top-level items; the first item
contains one nested list with exactly two items, the second item closes
immediately with no nested list.  The equation below exhibits the exact
output for arbitrary ids and texts; its shape is one ul with two li
children, the first li holding one inner ul with two li. -/
theorem buildTOC_levels_2332 (i1 t1 i2 t2 i3 t3 i4 t4 : Str) :
    buildTOC [⟨2, i1, t1⟩, ⟨3, i2, t2⟩, ⟨3, i3, t3⟩, ⟨2, i4, t4⟩] =
      "<ul>\n  <li><a href=\"#".data ++ i1 ++ "\">".data ++ t1 ++
      "</a>\n  <ul>\n    <li><a href=\"#".data ++ i2 ++ "\">".data ++ t2 ++
      "</a></li>\n    <li><a href=\"#".data ++ i3 ++ "\">".data ++ t3 ++
      "</a></li>\n  </ul>\n</li>\n  <li><a href=\"#".data ++ i4 ++ "\">".data ++ t4 ++
      "</a></li>\n</ul>".data := by
  simp only [buildTOC, tocGo, openLists, openLoop, closeTo, closeLoop, tocIndent, List.foldl]
  norm_num

/-! The link validator and the content pipeline (processContent in
src/process.go). -/

/-- Validation of one collected local link: an anchor must name a
reserved id, a non-scheme path must exist on disk; only warnings are
produced. -/
def validateLink (fs : FSModel) (dir : Str) (ids : List Str) (link : Str) : List Warning :=
  if startsWith link ("#".data) then
    if link.drop 1 ∈ ids then [] else [Warning.missingId link]
  else if !startsWith link "http".data && !startsWith link "mailto:".data &&
      !startsWith link "tel:".data then
    if fs.statOk (joinPath dir link) then [] else [Warning.missingLinkFile link]
  else []

/-- The validation loop over the collected links, in collection order. -/
def validateLinks (fs : FSModel) (dir : Str) (ids : List Str) : List Str → List Warning
  | [] => []
  | l :: ls => validateLink fs dir ids l ++ validateLinks fs dir ids ls

/-- External collaborators of the content pipeline: the convert and
syntax regex macro expanders, the toc placeholder substitution (returning
the rewritten text and whether a toc tag matched), the HTML fragment
parser, the node renderer, and the placeholder textual replacement.  All
are external libraries or regex glue in the Go source. -/
structure PipelineExt where
  expandConvert : Str → Str
  expandSyntax : Str → Str
  tocSub : Str → Str × Bool
  parseFragment : Str → Option (List Node)
  renderNodes : List Node → Str
  replaceAllTok : Str → Str → Str

/-- processContent from src/process.go: macro expansion, toc placeholder
substitution, fragment parse (failure returns the substituted text
unchanged), tree augmentation from a fresh state, link validation,
serialization, and final toc substitution.  The second component collects
the warnings of the walk followed by the warnings of the validation. -/
def processContent (fs : FSModel) (ext : PipelineExt) (content dir : Str) :
    Str × List Warning :=
  let c1 := ext.expandConvert content
  let c2 := ext.expandSyntax c1
  let p := ext.tocSub c2
  match ext.parseFragment p.1 with
  | none => (p.1, [])
  | some nodes =>
    let r := processNodes fs dir nodes PState.init
    let vwarns := validateLinks fs dir r.2.ids r.2.links
    let out := ext.renderNodes r.1
    (if p.2 then ext.replaceAllTok out (buildTOC r.2.headings) else out,
     r.2.warnings ++ vwarns)

/-- The same pipeline with the link-validation step removed, used to
state that validation contributes warnings only. -/
def processContentNoValidate (fs : FSModel) (ext : PipelineExt) (content dir : Str) :
    Str × List Warning :=
  let c1 := ext.expandConvert content
  let c2 := ext.expandSyntax c1
  let p := ext.tocSub c2
  match ext.parseFragment p.1 with
  | none => (p.1, [])
  | some nodes =>
    let r := processNodes fs dir nodes PState.init
    let out := ext.renderNodes r.1
    (if p.2 then ext.replaceAllTok out (buildTOC r.2.headings) else out,
     r.2.warnings)

theorem validateLink_other {fs : FSModel} {dir : Str} {ids : List Str} {l l' : Str}
    (h : l' ≠ l) :
    (validateLink fs dir ids l').count (Warning.missingId l) = 0 := by
  unfold validateLink
  repeat' split
  all_goals simp_all [List.count_singleton, List.count_nil]

theorem validateLink_hit {fs : FSModel} {dir : Str} {ids : List Str} {l : Str}
    (hl : startsWith l ("#".data) = true) (hmiss : l.drop 1 ∉ ids) :
    (validateLink fs dir ids l).count (Warning.missingId l) = 1 := by
  unfold validateLink
  rw [if_pos hl, if_neg hmiss]
  simp [List.count_singleton]

/-- C9: a local anchor link whose fragment names no reserved id yields
exactly one missing-id warning from the validation pass (one occurrence
of the link in the collected list gives warning count one), and the
validation step never changes the serialized output: the pipeline output
text equals the output of the same pipeline without validation. -/
theorem missing_anchor_one_warning (fs : FSModel) (ext : PipelineExt)
    (content dir : Str) (ids links : List Str) (l : Str)
    (hl : startsWith l ("#".data) = true) (hmiss : l.drop 1 ∉ ids)
    (hcount : links.count l = 1) :
    (validateLinks fs dir ids links).count (Warning.missingId l) = 1 ∧
    (processContent fs ext content dir).1 =
      (processContentNoValidate fs ext content dir).1 := by
  constructor
  · induction links with
    | nil => simp at hcount
    | cons x ls ih =>
      rw [validateLinks, List.count_append]
      by_cases hx : x = l
      · subst hx
        rw [List.count_cons_self] at hcount
        have hls : ls.count x = 0 := by omega
        rw [validateLink_hit hl hmiss]
        have hzero : (validateLinks fs dir ids ls).count (Warning.missingId x) = 0 := by
          clear hcount ih
          induction ls with
          | nil => rfl
          | cons y ys ih2 =>
            rw [List.count_cons] at hls
            rw [validateLinks, List.count_append]
            have hy : y ≠ x := by
              intro hc
              rw [hc] at hls
              simp at hls
            rw [validateLink_other hy, ih2 (by omega)]
        rw [hzero]
      · rw [validateLink_other hx]
        rw [List.count_cons] at hcount
        rw [ih (by simp [hx] at hcount; simpa using hcount)]
  · unfold processContent processContentNoValidate
    dsimp only
    cases ext.parseFragment (ext.tocSub (ext.expandSyntax (ext.expandConvert content))).1 with
    | none => rfl
    | some nodes => rfl

/-- A trivial pipeline-collaborator model used only for witnesses. -/
def extTriv : PipelineExt :=
  ⟨id, id, fun s => (s, false),
    fun _ => some [Node.element ("a".data) [(hrefKey, "#missing".data)] []],
    fun _ => [], fun s _ => s⟩

/-- Witness for missing_anchor_one_warning at a concrete registry and
link list. -/
theorem missing_anchor_one_warning_witness :
    (validateLinks fsTriv [] ["intro".data] ["#missing".data]).count
      (Warning.missingId ("#missing".data)) = 1 ∧
    (processContent fsTriv extTriv ("x".data) []).1 =
      (processContentNoValidate fsTriv extTriv ("x".data) []).1 :=
  missing_anchor_one_warning fsTriv extTriv ("x".data) [] ["intro".data]
    ["#missing".data] ("#missing".data) (by decide) (by decide) (by decide)

/-! The build orchestrator (build in src/build.go).  The filesystem is a
mutable path-to-contents map threaded through build; YAML parsing, the
template, the markdown back-conversion and the content pipeline are
external collaborators (the warn-only config checks, CSS inlining and
cache busting only influence logs and the rendered page data and are
folded into the render collaborator). -/

/-- The configuration record parsed from pager.yaml. -/
structure Config where
  title : Str
  description : Str
  favicon : Str
  card : Str
  domain : Str
  port : Nat
  css : List Str
  inlineCSS : Bool
  inject : Str
  theme : Str
  deploy : Str

/-- Recoverable build errors, one per early-return of build: pager.yaml
unreadable, pager.yaml unparsable, content.html unreadable, template
parse or execute failure. -/
inductive BuildErr where
  | configRead
  | configParse
  | contentMissing
  | template
deriving DecidableEq

/-- The on-disk state: a list of (path, contents) files. -/
structure FileSys where
  files : List (Str × Str)

/-- os.ReadFile. -/
def FileSys.read (fsy : FileSys) (p : Str) : Option Str :=
  match fsy.files.find? (fun f => f.1 == p) with
  | some f => some f.2
  | none => none

/-- os.WriteFile: overwrite the file or create it. -/
def fsUpsert : List (Str × Str) → Str → Str → List (Str × Str)
  | [], p, data => [(p, data)]
  | f :: rest, p, data =>
    if f.1 == p then (f.1, data) :: rest else f :: fsUpsert rest p data

def FileSys.write (fsy : FileSys) (p data : Str) : FileSys :=
  ⟨fsUpsert fsy.files p data⟩

/-- External collaborators of build: the YAML parser, the template
render (given the config, the filesystem for CSS inlining and hashing,
and the processed content), the HTML-to-markdown converter, the
frontmatter header printer, and the content pipeline. -/
structure BuildExt where
  yamlParse : Str → Option Config
  render : Config → FileSys → Str → Option Str
  toMarkdown : Str → Option Str
  header : Config → Str
  processC : Str → Str

/-- build from src/build.go: read and parse pager.yaml, read
content.html, process and render, write index.html, then generate
index.md (a markdown conversion failure only warns and skips the file).
Returns the build result together with the filesystem after the call. -/
def build (ext : BuildExt) (dir : Str) (fsy : FileSys) : Except BuildErr Unit × FileSys :=
  match fsy.read (joinPath dir ("pager.yaml".data)) with
  | none => (Except.error BuildErr.configRead, fsy)
  | some raw =>
    match ext.yamlParse raw with
    | none => (Except.error BuildErr.configParse, fsy)
    | some cfg =>
      match fsy.read (joinPath dir ("content.html".data)) with
      | none => (Except.error BuildErr.contentMissing, fsy)
      | some content =>
        match ext.render cfg fsy (ext.processC content) with
        | none => (Except.error BuildErr.template, fsy)
        | some page =>
          let fs1 := fsy.write (joinPath dir ("index.html".data)) page
          match ext.toMarkdown (ext.processC content) with
          | none => (Except.ok (), fs1)
          | some md =>
            (Except.ok (), fs1.write (joinPath dir ("index.md".data)) (ext.header cfg ++ md))

/-! The watch-rebuild-notify loop (the goroutine in run, src/server.go).
Filesystem events carry an arrival time and the base name of the touched
path; the debounce timer is the single pending deadline; a fired timer
runs the callback passed to time.AfterFunc: build, a log line, then
notifyClients. -/

/-- One fsnotify event: arrival time and filepath.Base of the name. -/
structure FsEvent where
  time : Nat
  base : Str

/-- The self-write suppression of the loop: events on the generated
index.html and index.md are skipped. -/
def eventSkipped (e : FsEvent) : Bool :=
  e.base == "index.html".data || e.base == "index.md".data

/-- Observable actions of the timer callback. -/
inductive LoopAction where
  | rebuild (time : Nat)
  | logError (time : Nat)
  | logRebuilt (time : Nat)
  | broadcast (time : Nat)
deriving DecidableEq

/-- The callback passed to time.AfterFunc in run: invoke build, log the
outcome, then notifyClients unconditionally. -/
def timerCallback (buildOk : Bool) (t : Nat) : List LoopAction :=
  LoopAction.rebuild t ::
    (if buildOk then [LoopAction.logRebuilt t] else [LoopAction.logError t]) ++
    [LoopAction.broadcast t]

/-- Handling of one event by the loop body: a skipped event leaves the
pending timer alone; any other event stops the pending timer and arms a
fresh one at its own time plus the debounce delay. -/
def armTimer (delay : Nat) (pending : Option Nat) (e : FsEvent) : Option Nat :=
  if eventSkipped e then pending
  else some (e.time + delay)

/-- The deadlines at which the timer fires, for a time-ordered event
trace: a pending deadline that passes before the next event arrives
fires; otherwise the event cancels and re-arms it.  After the last event
the remaining pending timer fires. -/
def watchLoop (delay : Nat) : Option Nat → List FsEvent → List Nat
  | none, [] => []
  | some d, [] => [d]
  | none, e :: rest => watchLoop delay (armTimer delay none e) rest
  | some d, e :: rest =>
    if d ≤ e.time then d :: watchLoop delay (armTimer delay none e) rest
    else watchLoop delay (armTimer delay (some d) e) rest

/-- The fire deadlines of a session started with no pending timer. -/
def fireTimes (delay : Nat) (es : List FsEvent) : List Nat :=
  watchLoop delay none es

/-- All observable actions of a watch session: each fire runs the
callback once. -/
def watchActions (delay : Nat) (buildOk : Nat → Bool) (es : List FsEvent) : List LoopAction :=
  (fireTimes delay es).flatMap (fun t => timerCallback (buildOk t) t)

def isRebuild : LoopAction → Bool
  | .rebuild _ => true
  | _ => false

def isBroadcast : LoopAction → Bool
  | .broadcast _ => true
  | _ => false

end Pager

namespace Pager

/-- C5: three filesystem events on non-generated files arriving within
the debounce window coalesce into a single timer fire: the session
performs exactly one rebuild and one broadcast, at the third event time
plus the delay, because each further event stops and re-arms the single
pending timer. -/
theorem debounce_coalesces (delay : Nat) (buildOk : Nat → Bool) (e1 e2 e3 : FsEvent)
    (hs1 : eventSkipped e1 = false) (hs2 : eventSkipped e2 = false)
    (hs3 : eventSkipped e3 = false)
    (h12 : e1.time ≤ e2.time) (h23 : e2.time ≤ e3.time)
    (hw2 : e2.time < e1.time + delay) (hw3 : e3.time < e2.time + delay) :
    fireTimes delay [e1, e2, e3] = [e3.time + delay] ∧
    (watchActions delay buildOk [e1, e2, e3]).countP isRebuild = 1 ∧
    (watchActions delay buildOk [e1, e2, e3]).countP isBroadcast = 1 := by
  have s1 : armTimer delay none e1 = some (e1.time + delay) := by
    unfold armTimer
    rw [hs1]
    simp
  have s2 : armTimer delay (some (e1.time + delay)) e2 = some (e2.time + delay) := by
    unfold armTimer
    rw [hs2]
    simp
  have s3 : armTimer delay (some (e2.time + delay)) e3 = some (e3.time + delay) := by
    unfold armTimer
    rw [hs3]
    simp
  have hfire : fireTimes delay [e1, e2, e3] = [e3.time + delay] := by
    unfold fireTimes
    rw [watchLoop, s1, watchLoop, if_neg (by omega : ¬ e1.time + delay ≤ e2.time),
      s2, watchLoop, if_neg (by omega : ¬ e2.time + delay ≤ e3.time), s3, watchLoop]
  refine ⟨hfire, ?_, ?_⟩ <;>
    cases hok : buildOk (e3.time + delay) <;>
      simp [watchActions, hfire, timerCallback, isRebuild, isBroadcast, hok]

/-- Witness for debounce_coalesces on a concrete burst of three edits of
content.html at times 0, 1, 2 with a 100 millisecond delay. -/
theorem debounce_coalesces_witness :
    fireTimes 100 [⟨0, "content.html".data⟩, ⟨1, "content.html".data⟩,
      ⟨2, "content.html".data⟩] = [102] ∧
    (watchActions 100 (fun _ => true) [⟨0, "content.html".data⟩,
      ⟨1, "content.html".data⟩, ⟨2, "content.html".data⟩]).countP isRebuild = 1 ∧
    (watchActions 100 (fun _ => true) [⟨0, "content.html".data⟩,
      ⟨1, "content.html".data⟩, ⟨2, "content.html".data⟩]).countP isBroadcast = 1 :=
  debounce_coalesces 100 (fun _ => true) ⟨0, "content.html".data⟩
    ⟨1, "content.html".data⟩ ⟨2, "content.html".data⟩
    (by decide) (by decide) (by decide) (by decide) (by decide) (by decide) (by decide)

/-- C7: a recoverable build error returns before any file is written, so
the filesystem — in particular the previously generated index.html — is
unchanged byte-for-byte, and the timer callback still broadcasts after a
failed build. -/
theorem failed_build_preserves_output (ext : BuildExt) (dir : Str) (fsy : FileSys)
    (e : BuildErr) (h : (build ext dir fsy).1 = Except.error e) :
    (build ext dir fsy).2 = fsy ∧
    (build ext dir fsy).2.read (joinPath dir ("index.html".data)) =
      fsy.read (joinPath dir ("index.html".data)) ∧
    (∀ t, LoopAction.broadcast t ∈ timerCallback false t) := by
  have hfs : (build ext dir fsy).2 = fsy := by
    revert h
    unfold build
    dsimp only
    repeat' split
    all_goals intro h
    all_goals first
      | rfl
      | (exfalso ; simp at h)
  exact ⟨hfs, by rw [hfs], fun t => by simp [timerCallback]⟩

/-- A minimal config record for witnesses. -/
def cfgTriv : Config := ⟨[], [], [], [], [], 0, [], false, [], [], []⟩

/-- Build collaborators for witnesses: everything succeeds. -/
def extBuildTriv : BuildExt :=
  ⟨fun _ => some cfgTriv, fun _ _ _ => some ("page".data), fun _ => some [],
    fun _ => [], id⟩

/-- A filesystem with a config and a previously generated index.html but
no content.html, so the build fails recoverably. -/
def fsNoContent : FileSys :=
  ⟨[('/' :: "pager.yaml".data, "title: t".data),
    ('/' :: "index.html".data, "old".data)]⟩

/-- Witness for failed_build_preserves_output: build over fsNoContent
fails with contentMissing and changes nothing. -/
theorem failed_build_preserves_output_witness :
    (build extBuildTriv [] fsNoContent).2 = fsNoContent ∧
    (build extBuildTriv [] fsNoContent).2.read (joinPath [] ("index.html".data)) =
      fsNoContent.read (joinPath [] ("index.html".data)) ∧
    (∀ t, LoopAction.broadcast t ∈ timerCallback false t) :=
  failed_build_preserves_output extBuildTriv [] fsNoContent BuildErr.contentMissing rfl

/-! Claim C6 concerns overlap of rebuild executions.  The timer callback
runs on its own goroutine (time.AfterFunc), so a build that takes longer
than the debounce delay can still be running when the next timer fires:
modelling a build as occupying the half-open interval from its fire time
to fire time plus duration, consecutive fires can overlap.  What does
hold is that two fires are never closer than the debounce delay. -/

/-- Whether two consecutive rebuild executions overlap when every build
runs for the given duration. -/
def hasOverlap (dur : Nat) : List Nat → Bool
  | d1 :: d2 :: rest => decide (d2 < d1 + dur) || hasOverlap dur (d2 :: rest)
  | _ => false

theorem watchLoop_lb (delay : Nat) :
    ∀ (es : List FsEvent) (pending : Option Nat) (m : Nat),
    (∀ d, pending = some d → m ≤ d) →
    (∀ e ∈ es, m ≤ e.time + delay) →
    ∀ f ∈ watchLoop delay pending es, m ≤ f := by
  intro es
  induction es with
  | nil =>
    intro pending m hp he f hf
    cases pending with
    | none =>
      rw [watchLoop] at hf
      simp at hf
    | some d =>
      rw [watchLoop] at hf
      simp only [List.mem_singleton] at hf
      subst hf
      exact hp f rfl
  | cons e rest ih =>
    intro pending m hp he f hf
    have harm : ∀ d, armTimer delay none e = some d → m ≤ d := by
      intro d hd
      unfold armTimer at hd
      split at hd
      · exact absurd hd (by simp)
      · injection hd with hd
        rw [← hd]
        exact he e (List.mem_cons_self _ _)
    have hrest : ∀ e' ∈ rest, m ≤ e'.time + delay :=
      fun e' he' => he e' (List.mem_cons_of_mem _ he')
    cases pending with
    | none =>
      rw [watchLoop] at hf
      exact ih (armTimer delay none e) m harm hrest f hf
    | some d0 =>
      rw [watchLoop] at hf
      split at hf
      · rcases List.mem_cons.mp hf with rfl | hf
        · exact hp f rfl
        · exact ih (armTimer delay none e) m harm hrest f hf
      · refine ih (armTimer delay (some d0) e) m ?_ hrest f hf
        intro d hd
        unfold armTimer at hd
        split at hd
        · injection hd with hd
          rw [← hd]
          exact hp d0 rfl
        · injection hd with hd
          rw [← hd]
          exact he e (List.mem_cons_self _ _)

theorem watchLoop_chain (delay : Nat) :
    ∀ (es : List FsEvent) (pending : Option Nat),
    List.Pairwise (fun a b => a.time ≤ b.time) es →
    (∀ d, pending = some d → ∀ e ∈ es, d ≤ e.time + delay) →
    List.Chain' (fun a b => a + delay ≤ b) (watchLoop delay pending es) := by
  intro es
  induction es with
  | nil =>
    intro pending _ _
    cases pending with
    | none =>
      rw [watchLoop]
      simp
    | some d =>
      rw [watchLoop]
      simp
  | cons e rest ih =>
    intro pending hsort hp
    rw [List.pairwise_cons] at hsort
    have harm : ∀ d, armTimer delay none e = some d → ∀ e' ∈ rest, d ≤ e'.time + delay := by
      intro d hd e' he'
      unfold armTimer at hd
      split at hd
      · exact absurd hd (by simp)
      · injection hd with hd
        rw [← hd]
        have := hsort.1 e' he'
        omega
    cases pending with
    | none =>
      rw [watchLoop]
      exact ih (armTimer delay none e) hsort.2 harm
    | some d0 =>
      rw [watchLoop]
      split
      · rename_i hfired
        rw [List.chain'_cons']
        constructor
        · intro b hb
          refine watchLoop_lb delay rest (armTimer delay none e) (d0 + delay) ?_ ?_ b
            (List.mem_of_mem_head? hb)
          · intro d hd
            unfold armTimer at hd
            split at hd
            · exact absurd hd (by simp)
            · injection hd with hd
              omega
          · intro e' he'
            have := hsort.1 e' he'
            omega
        · exact ih (armTimer delay none e) hsort.2 harm
      · refine ih (armTimer delay (some d0) e) hsort.2 ?_
        intro d hd e' he'
        unfold armTimer at hd
        split at hd
        · injection hd with hd
          rw [← hd]
          exact hp d0 rfl e' (List.mem_cons_of_mem _ he')
        · injection hd with hd
          have := hsort.1 e' he'
          omega

theorem hasOverlap_false_of_chain {dur delay : Nat} (hB : dur ≤ delay) :
    ∀ {l : List Nat}, List.Chain' (fun a b => a + delay ≤ b) l →
      hasOverlap dur l = false := by
  intro l
  induction l with
  | nil => intro _; rfl
  | cons d1 rest ih =>
    cases rest with
    | nil => intro _; rfl
    | cons d2 rest2 =>
      intro hc
      rw [List.chain'_cons] at hc
      rw [hasOverlap]
      have h1 : d1 + delay ≤ d2 := hc.1
      simp only [Bool.or_eq_false_iff, decide_eq_false_iff_not]
      exact ⟨by omega, ih hc.2⟩

/-- Counterexample to C6 as stated: with a 100 millisecond debounce and a
build lasting 300, an edit at time 0 fires a rebuild at 100; a second
edit at 150, while that build is still running, fires another at 250,
inside the first build interval from 100 to 400.  The AfterFunc callback
runs on a fresh goroutine, so nothing in the loop serializes the two. -/
theorem rebuild_overlap_counterexample :
    hasOverlap 300 (fireTimes 100
      [⟨0, "content.html".data⟩, ⟨150, "content.html".data⟩]) = true := by
  decide

/-- C6 amended: no two rebuilds are started within less than the debounce
delay of each other, so rebuilds never overlap provided every build
completes within the debounce delay; a build outlasting the delay can
overlap the next (see the counterexample). -/
theorem rebuild_starts_separated (delay : Nat) (es : List FsEvent)
    (hsort : List.Pairwise (fun a b => a.time ≤ b.time) es) :
    List.Chain' (fun a b => a + delay ≤ b) (fireTimes delay es) ∧
    (∀ dur, dur ≤ delay → hasOverlap dur (fireTimes delay es) = false) := by
  have hc := watchLoop_chain delay es none hsort (fun d hd => by simp at hd)
  exact ⟨hc, fun dur hB => hasOverlap_false_of_chain hB hc⟩

/-- Witness for rebuild_starts_separated on the counterexample trace with
a build duration equal to the delay. -/
theorem rebuild_starts_separated_witness :
    List.Chain' (fun a b => a + 100 ≤ b)
      (fireTimes 100 [⟨0, "content.html".data⟩, ⟨150, "content.html".data⟩]) ∧
    hasOverlap 100 (fireTimes 100
      [⟨0, "content.html".data⟩, ⟨150, "content.html".data⟩]) = false :=
  ⟨(rebuild_starts_separated 100
      [⟨0, "content.html".data⟩, ⟨150, "content.html".data⟩] (by decide)).1,
   (rebuild_starts_separated 100
      [⟨0, "content.html".data⟩, ⟨150, "content.html".data⟩] (by decide)).2
      100 (Nat.le_refl _)⟩

end Pager
